import Mathlib

/-!
Verification of the schedule materialization and conflict-detection engine
of the Semestra backend (src/backend/main.py, src/backend/utils.py).

The Python source is shallowly embedded: Python dicts holding schedule items
become a Lean structure, Python ints become Int/Nat, Python clock strings
stay strings (the source compares them lexicographically), Python dates are
a civil-date structure with proleptic-Gregorian ordinal arithmetic matching
datetime.date, and functions that raise HTTPException are modelled as
Option-returning functions.
-/

/-! ## Civil dates (embedding of Python datetime.date arithmetic) -/

/-- A proleptic-Gregorian civil date, as Python datetime.date. -/
structure CivilDate where
  year : Nat
  month : Nat
  day : Nat
deriving Repr, DecidableEq

/-- Gregorian leap-year rule, as Python calendar arithmetic. -/
def isLeapYear (y : Nat) : Bool :=
  y % 4 == 0 && (y % 100 != 0 || y % 400 == 0)

/-- Length of a month, as Python datetime internals. -/
def daysInMonth (y m : Nat) : Nat :=
  if m = 2 then (if isLeapYear y then 29 else 28)
  else if m = 4 ∨ m = 6 ∨ m = 9 ∨ m = 11 then 30
  else 31

/-- Days in the months strictly before month `m` of year `y`. -/
def daysBeforeMonth (y m : Nat) : Nat :=
  (List.range (m - 1)).foldl (fun acc i => acc + daysInMonth y (i + 1)) 0

/-- Python date.toordinal: day number with 0001-01-01 as day 1. -/
def dateOrd (d : CivilDate) : Int :=
  (365 * (d.year - 1) + (d.year - 1) / 4 - (d.year - 1) / 100 + (d.year - 1) / 400
    + daysBeforeMonth d.year d.month + d.day : Int)

/-- Inverse of dateOrd (civil-from-days), so that date plus timedelta can be
computed: dateFromOrd (dateOrd d + k) models Python d + timedelta(days=k). -/
def dateFromOrd (ord : Int) : CivilDate :=
  let z : Int := ord + 305
  let era : Int := Int.fdiv z 146097
  let doe : Int := z - era * 146097
  let yoe : Int := Int.fdiv (doe - Int.fdiv doe 1460 + Int.fdiv doe 36524 - Int.fdiv doe 146096) 365
  let y : Int := yoe + era * 400
  let doy : Int := doe - (365 * yoe + Int.fdiv yoe 4 - Int.fdiv yoe 100)
  let mp : Int := Int.fdiv (5 * doy + 2) 153
  let d : Int := doy - Int.fdiv (153 * mp + 2) 5 + 1
  let m : Int := if mp < 10 then mp + 3 else mp - 9
  let yr : Int := if m ≤ 2 then y + 1 else y
  { year := yr.toNat, month := m.toNat, day := d.toNat }

/-- Python date + timedelta(days=k). -/
def addDays (d : CivilDate) (k : Int) : CivilDate :=
  dateFromOrd (dateOrd d + k)

/-- Python date.isoweekday: 1 = Monday .. 7 = Sunday. -/
def isoWeekday (d : CivilDate) : Int :=
  (dateOrd d - 1) % 7 + 1

/-! ## Schedule items and course events

`Item` embeds the per-occurrence dict built by event_to_week_item in
src/backend/main.py; `CourseEvent` embeds the columns of models.CourseEvent
that the scheduling engine reads. -/

structure Item where
  event_id : String
  course_id : String
  course_name : String
  event_type_code : String
  section_id : Option String
  day_of_week : Int
  start_time : String
  end_time : String
  week_pattern : String
  enable : Bool
  skip : Bool
  is_conflict : Bool
  conflict_group_id : Option String
  week : Int
  title : Option String
  note : Option String
  render_state : Option String
deriving Repr, DecidableEq

instance : Inhabited Item :=
  ⟨{ event_id := "", course_id := "", course_name := "", event_type_code := "",
     section_id := none, day_of_week := 0, start_time := "", end_time := "",
     week_pattern := "", enable := false, skip := false, is_conflict := false,
     conflict_group_id := none, week := 0, title := none, note := none,
     render_state := none }⟩

structure CourseEvent where
  id : String
  course_id : String
  event_type_code : String
  section_id : Option String
  title : Option String
  day_of_week : Int
  start_time : String
  end_time : String
  week_pattern : String
  start_week : Option Int
  end_week : Option Int
  enable : Bool
  skip : Bool
  note : Option String
deriving Repr, DecidableEq

/-! ## Validators (embedding of main.py validate_* helpers)

The Python validators raise HTTPException(422); here they are Boolean
predicates, true exactly when the Python function returns normally. -/

/-- Lexicographic comparison of char lists by code point — the comparison
Python applies to the HH:MM clock strings. -/
def charListLt : List Char → List Char → Bool
  | [], [] => false
  | [], _ :: _ => true
  | _ :: _, [] => false
  | a :: as, b :: bs =>
    if a.toNat < b.toNat then true
    else if b.toNat < a.toNat then false
    else charListLt as bs

/-- Python string `<` (lexicographic by code point). -/
def str_lt (a b : String) : Bool := charListLt a.data b.data

/-- Upper-case one ASCII character (Python str.upper on the week-pattern
literals, which are ASCII). -/
def char_upper (c : Char) : Char :=
  if 97 ≤ c.toNat ∧ c.toNat ≤ 122 then Char.ofNat (c.toNat - 32) else c

/-- Python str.upper. -/
def str_to_upper (s : String) : String := String.mk (s.data.map char_upper)

/-- Split a char list on a separator character, as Python str.split(sep). -/
def splitOnChar (sep : Char) : List Char → List (List Char)
  | [] => [[]]
  | c :: rest =>
    match splitOnChar sep rest with
    | [] => [[]]
    | g :: gs => if c = sep then [] :: g :: gs else (c :: g) :: gs

/-- Every character is an ASCII decimal digit. -/
def allDigits (l : List Char) : Bool :=
  l.all (fun c => 48 ≤ c.toNat && c.toNat ≤ 57)

/-- Numeric value of a list of decimal digit characters. -/
def natOfDigits (l : List Char) : Nat :=
  l.foldl (fun acc c => acc * 10 + (c.toNat - 48)) 0

/-- One or two digit decimal field bounded by `bound`, as accepted by
strptime for a %H or %M directive. -/
def isTwoDigitField (l : List Char) (bound : Nat) : Bool :=
  (l.length = 1 || l.length = 2) && allDigits l && natOfDigits l ≤ bound

/-- strptime(value, "%H:%M") succeeds, as in main.py validate_time_range and
parse_time_value. -/
def isValidTimeStr (s : String) : Bool :=
  match splitOnChar ':' s.data with
  | [h, m] => isTwoDigitField h 23 && isTwoDigitField m 59
  | _ => false

/-- main.py validate_time_range: both times parse with %H:%M and the start
string is lexicographically smaller than the end string. -/
def validate_time_range (start_time end_time : String) : Bool :=
  isValidTimeStr start_time && isValidTimeStr end_time &&
    str_lt start_time end_time

/-- main.py validate_day_of_week: dayOfWeek must be in 1..7. -/
def validate_day_of_week (day_of_week : Int) : Bool :=
  !(day_of_week < 1 || day_of_week > 7)

/-- main.py normalize_week_pattern: upper-case the literal and accept only
EVERY or ALTERNATING; anything else raises 422, modelled as none. -/
def normalize_week_pattern (value : String) : Option String :=
  let normalized := str_to_upper value
  if normalized = "EVERY" ∨ normalized = "ALTERNATING" then some normalized else none

/-! ## Week pattern resolver (main.py matches_week_pattern, event_to_week_item) -/

/-- Python `start_week or 1`: None and 0 are falsy and fall back to 1. -/
def orOneWeek (start_week : Option Int) : Int :=
  match start_week with
  | none => 1
  | some s => if s = 0 then 1 else s

/-- Python `end_week or max_week` with the same falsiness rule. -/
def orMaxWeek (end_week : Option Int) (max_week : Int) : Int :=
  match end_week with
  | none => max_week
  | some s => if s = 0 then max_week else s

/-- main.py matches_week_pattern. Int `%` is Euclidean mod, which agrees
with Python `%` for the positive modulus 2. -/
def matches_week_pattern (week_pattern : String) (week : Int) (start_week : Option Int) : Bool :=
  if week_pattern = "EVERY" then true
  else if week_pattern = "ALTERNATING" then
    let anchor_week := orOneWeek start_week
    (week - anchor_week) % 2 == 0
  else false

/-- main.py event_to_week_item: resolve one pattern for one week.  Returns
the occurrence (if any) and the updated warnings list; the Python function
mutates `warnings` in place and returns Optional[dict]. -/
def event_to_week_item (event : CourseEvent) (course_name : String)
    (week max_week : Int) (warnings : List String) : Option Item × List String :=
  if !(validate_time_range event.start_time event.end_time &&
       validate_day_of_week event.day_of_week) then
    (none, warnings ++
      ["Skipped invalid event '" ++ event.id ++ "' due to invalid time/day data."])
  else
    let effective_start_week := orOneWeek event.start_week
    let effective_end_week := orMaxWeek event.end_week max_week
    if effective_start_week > effective_end_week then
      (none, warnings ++
        ["Skipped invalid event '" ++ event.id ++ "' due to invalid week range."])
    else if week < effective_start_week ∨ week > effective_end_week then
      (none, warnings)
    else if !matches_week_pattern event.week_pattern week (some effective_start_week) then
      (none, warnings)
    else if !event.enable then
      (none, warnings)
    else
      (some { event_id := event.id
              course_id := event.course_id
              course_name := course_name
              event_type_code := event.event_type_code
              section_id := event.section_id
              day_of_week := event.day_of_week
              start_time := event.start_time
              end_time := event.end_time
              week_pattern := event.week_pattern
              enable := event.enable
              skip := event.skip
              is_conflict := false
              conflict_group_id := none
              week := week
              title := event.title
              note := event.note
              render_state := none }, warnings)

/-! ## Export materializer (main.py week_date, build_export_payload,
export_schedule_ics) -/

/-- main.py week_date: semester_start + ((week-1)*7 + (day_of_week-1)) days. -/
def week_date (semester_start : CivilDate) (week day_of_week : Int) : CivilDate :=
  addDays semester_start ((week - 1) * 7 + (day_of_week - 1))

/-- schemas.SkipRenderMode. -/
inductive SkipRenderMode where
  | HIDE_SKIPPED
  | GRAY_SKIPPED
deriving Repr, DecidableEq

/-- The per-item render policy of the merge loop in main.py
build_export_payload: returns none when the item is dropped and the kept
item (with render_state set) otherwise. -/
def apply_render_policy (export_format : String) (mode : SkipRenderMode)
    (item : Item) : Option Item :=
  if item.skip then
    if export_format = "ics" then none
    else if mode = SkipRenderMode.HIDE_SKIPPED then none
    else some { item with render_state := some "SKIPPED_GRAY" }
  else
    some { item with render_state := some "NORMAL" }

/-- The merge loop of build_export_payload over one week's items: each kept
item is appended to the merged list in order. -/
def merge_week_items (export_format : String) (mode : SkipRenderMode) :
    List Item → List Item
  | [] => []
  | item :: rest =>
    match apply_render_policy export_format mode item with
    | some kept => kept :: merge_week_items export_format mode rest
    | none => merge_week_items export_format mode rest

/-- main.py parse_time_value: strptime(value, "%H:%M").time(), modelled as
the (hour, minute) pair when the string parses. -/
def parse_time_value (value : String) : Option (Nat × Nat) :=
  match splitOnChar ':' value.data with
  | [h, m] =>
    if isTwoDigitField h 23 && isTwoDigitField m 59 then
      some (natOfDigits h, natOfDigits m)
    else none
  | _ => none

/-- One serialized calendar entry of export_schedule_ics. -/
structure IcsEntry where
  uid : String
  summary : String
  event_date : CivilDate
  dtstart_time : Option (Nat × Nat)
  dtend_time : Option (Nat × Nat)
  description : Option String
deriving Repr, DecidableEq

/-- The VEVENT emission loop of main.py export_schedule_ics: one discrete
entry per payload item, dated via week_date. -/
def export_ics_entries (semester_start : CivilDate) (items : List Item) : List IcsEntry :=
  items.map (fun item =>
    { uid := item.event_id ++ "-" ++ toString item.week ++ "@semestra"
      summary := item.course_name ++ " " ++ item.event_type_code
      event_date := week_date semester_start item.week item.day_of_week
      dtstart_time := parse_time_value item.start_time
      dtend_time := parse_time_value item.end_time
      description := match item.note with
        | some n => if n = "" then none else some n
        | none => none })

/-! ## Recurrence importer week-pattern classification
(utils.py _resolve_week_pattern) -/

/-- utils.py DEFAULT_WEEK_PATTERN. -/
def DEFAULT_WEEK_PATTERN : String := "EVERY"

/-- utils.py _resolve_week_pattern.  The Python set comprehension
`gaps == {2}` holds exactly when the (nonempty, because len(weeks) > 1)
list of consecutive gaps consists only of 2s. -/
def resolve_week_pattern (weeks : List Int) : String :=
  if weeks.length ≤ 1 then DEFAULT_WEEK_PATTERN
  else
    let gaps := (List.range (weeks.length - 1)).map
      (fun index => weeks.getD (index + 1) 0 - weeks.getD index 0)
    if gaps.all (fun g => g == 2) then
      (if weeks.getD 0 0 % 2 == 1 then "ODD" else "EVEN")
    else DEFAULT_WEEK_PATTERN

/-! ## Conflict detector (main.py detect_conflicts)

The Python function keeps a dict `parent` mapping active occurrence indices
to indices; it is embedded as a total function Nat → Nat that is the
identity outside the active indices (the dict is only ever read at active
indices).  The recursive find_parent with path compression is given an
explicit fuel argument; detect_conflicts supplies fuel items.length + 1,
which exceeds the longest possible parent chain. -/

/-- An occurrence participates in conflict detection iff enable and not skip. -/
def is_active_item (item : Item) : Bool :=
  item.enable && !item.skip

/-- Read a schedule item by index (indices used are always in range). -/
def itemAt (items : List Item) (index : Nat) : Item :=
  items.getD index default

/-- The `active_indices` list of detect_conflicts, in input order. -/
def active_indices (items : List Item) : List Nat :=
  (List.range items.length).filter (fun index => is_active_item (itemAt items index))

/-- Pointwise update of the parent map (Python `parent[x] = v`). -/
def pupdate (p : Nat → Nat) (x v : Nat) : Nat → Nat :=
  fun y => if y = x then v else p y

/-- main.py find_parent with path compression, fueled.  Returns the updated
parent map and the representative.  With fuel exceeding the chain length it
returns the true root; detect_conflicts always supplies enough fuel. -/
def find_parent : Nat → (Nat → Nat) → Nat → ((Nat → Nat) × Nat)
  | 0, p, x => (p, x)
  | fuel + 1, p, x =>
    if p x = x then (p, x)
    else
      let rec_result := find_parent fuel p (p x)
      (pupdate rec_result.1 x rec_result.2, rec_result.2)

/-- main.py union: find both roots (compressing), then attach root_b
under root_a when they differ. -/
def uf_union (fuel : Nat) (p : Nat → Nat) (a b : Nat) : Nat → Nat :=
  let fa := find_parent fuel p a
  let fb := find_parent fuel fa.1 b
  if fa.2 ≠ fb.2 then pupdate fb.1 fb.2 fa.2 else fb.1

/-- The overlap test of the pair loop: different course, same day, and
half-open time intervals intersect (string comparison of HH:MM times,
exactly as the Python dict values are compared). -/
def should_union (items : List Item) (a b : Nat) : Bool :=
  let x := itemAt items a
  let y := itemAt items b
  !(x.course_id == y.course_id) && x.day_of_week == y.day_of_week &&
    str_lt x.start_time y.end_time && str_lt y.start_time x.end_time

/-- All ordered pairs (i, j) with i before j, in the nested-loop order of
the Python `for i in range(n): for j in range(i+1, n)`. -/
def sub_pairs : List Nat → List (Nat × Nat)
  | [] => []
  | a :: rest => rest.map (fun b => (a, b)) ++ sub_pairs rest

/-- The pair loop of detect_conflicts: fold the unions over all candidate
pairs, starting from the identity parent map. -/
def run_unions (items : List Item) (fuel : Nat) : Nat → Nat :=
  (sub_pairs (active_indices items)).foldl
    (fun p ab => if should_union items ab.1 ab.2 then uf_union fuel p ab.1 ab.2 else p)
    (fun x => x)

/-- Append `index` to the group keyed by `root`, creating the group at the
end when absent — Python groups.setdefault(root, []).append(idx) on an
insertion-ordered dict. -/
def add_to_group (groups : List (Nat × List Nat)) (root index : Nat) :
    List (Nat × List Nat) :=
  match groups with
  | [] => [(root, [index])]
  | (r, members) :: rest =>
    if r = root then (r, members ++ [index]) :: rest
    else (r, members) :: add_to_group rest root index

/-- The grouping loop of detect_conflicts: for each active index in order,
find its representative (compressing further) and append it to that
representative's group. -/
def build_groups (items : List Item) (fuel : Nat) :
    (Nat → Nat) × List (Nat × List Nat) :=
  (active_indices items).foldl
    (fun st index =>
      let f := find_parent fuel st.1 index
      (f.1, add_to_group st.2 f.2 index))
    (run_unions items fuel, [])

/-- Little-endian base-10 digits of `n`, with enough fuel (fuel ≥ n). -/
def decimal_digits : Nat → Nat → List Nat
  | 0, _ => []
  | _ + 1, 0 => []
  | fuel + 1, n => n % 10 :: decimal_digits fuel (n / 10)

/-- Decimal rendering of a Nat, as Python str(int) inside the f-string
"conflict-{counter}". -/
def nat_decimal (n : Nat) : String :=
  if n = 0 then "0"
  else String.mk (((decimal_digits n n).reverse).map Nat.digitChar)

/-- The identifier-assignment loop: walk the groups in first-encounter
order, skip singleton groups, and give every member of each larger group
the identifier "conflict-<counter>" with counter starting at 1. -/
def assign_groups : Nat → List (Nat × List Nat) → List (Nat × String)
  | _, [] => []
  | counter, (_, members) :: rest =>
    if members.length ≤ 1 then assign_groups counter rest
    else
      members.map (fun m => (m, "conflict-" ++ nat_decimal counter))
        ++ assign_groups (counter + 1) rest

/-- Mark one item as conflicting with the given group identifier. -/
def set_conflict (item : Item) (gid : String) : Item :=
  { item with is_conflict := true, conflict_group_id := some gid }

/-- Apply the computed assignments to the item list (the Python loop
mutates items[member_index] in place). -/
def apply_conflicts : Nat → List Item → List (Nat × String) → List Item
  | _, [], _ => []
  | index, item :: rest, assignments =>
    (match assignments.lookup index with
     | some gid => set_conflict item gid
     | none => item) :: apply_conflicts (index + 1) rest assignments

/-- The conflict-group assignments detect_conflicts derives from a list of
items (index, groupId pairs for every member of a conflict cluster). -/
def detect_assignments (items : List Item) : List (Nat × String) :=
  assign_groups 1 (build_groups items (items.length + 1)).2

/-- main.py detect_conflicts. -/
def detect_conflicts (items : List Item) : List Item :=
  apply_conflicts 0 items (detect_assignments items)

/-- Recursion depth of find_parent: the number of nested self-calls the
Python find_parent performs from `x` on parent map `p`. -/
def find_parent_depth : Nat → (Nat → Nat) → Nat → Nat
  | 0, _, _ => 0
  | fuel + 1, p, x => if p x = x then 0 else find_parent_depth fuel p (p x) + 1

/-- A concrete week-2 occurrence used by the concrete test inputs below:
active, day 3, with the given course and clock strings. -/
def sample_item (cid st et : String) : Item :=
  { event_id := "e-" ++ cid, course_id := cid, course_name := "Course " ++ cid,
    event_type_code := "LECTURE", section_id := none, day_of_week := 3,
    start_time := st, end_time := et, week_pattern := "EVERY", enable := true,
    skip := false, is_conflict := false, conflict_group_id := none, week := 2,
    title := none, note := none, render_state := none }

/-! ## Disjoint-set reasoning vocabulary

The fueled find_parent above is the executable embedding; these predicates
describe parent maps abstractly so that the behaviour of detect_conflicts
can be proved for every input. -/

/-- iterp p n x applies the parent map n times to x. -/
def iterp (p : Nat → Nat) : Nat → Nat → Nat
  | 0, x => x
  | n + 1, x => iterp p n (p x)

/-- r is the representative reached from x by following parent links. -/
def Root (p : Nat → Nat) (x r : Nat) : Prop :=
  ∃ n, iterp p n x = r ∧ p r = r

/-- Two indices currently lie in the same disjoint-set class. -/
def same_root (p : Nat → Nat) (u v : Nat) : Prop :=
  ∃ r, Root p u r ∧ Root p v r

/-- Well-formedness of a parent map over the support A: identity outside A,
closed on A, and free of nontrivial cycles. -/
def UFInv (A : Finset Nat) (p : Nat → Nat) : Prop :=
  (∀ x, x ∉ A → p x = x) ∧ (∀ x, x ∈ A → p x ∈ A) ∧
  (∀ x k, iterp p (k + 1) x = x → p x = x)

/-- Two occurrences are directly in conflict: both active and the pair-loop
overlap condition holds in one order (it is symmetric). -/
def overlap_edge (items : List Item) (u v : Nat) : Prop :=
  u ∈ active_indices items ∧ v ∈ active_indices items ∧
  (should_union items u v = true ∨ should_union items v u = true)

/-- The projection of an item to the fields detect_conflicts reads:
enable, skip, course, day, and the two clock strings. -/
def stable_key (it : Item) : Bool × Bool × String × Int × String × String :=
  (it.enable, it.skip, it.course_id, it.day_of_week, it.start_time, it.end_time)

def union_fold (items : List Item) (fuel : Nat) (L : List (Nat × Nat)) (p0 : Nat → Nat) :
    Nat → Nat :=
  L.foldl (fun p ab => if should_union items ab.1 ab.2 then uf_union fuel p ab.1 ab.2 else p) p0


def digits_value : List Nat → Nat
  | [] => 0
  | d :: ds => d + 10 * digits_value ds


/-! C9 definitions: embedding of utils.py parse_ics_schedule.  The free-text
heuristics (_normalize_course_name, _extract_section_fields,
_infer_event_type_code, _extract_title_and_instructor) are best-effort
string normalizers whose outputs the engine treats as opaque (spec design
note); they are modelled as pre-extracted fields of the event record, and
the loop's emptiness checks read those fields. -/

inductive IcsDecoded where
  | dtime (d : CivilDate) (hour minute : Nat)
  | donly (d : CivilDate)
  | inval
deriving Repr, DecidableEq

structure IcsRrule where
  freq : List String
  interval : List Int
  until_vals : List IcsDecoded
  count : List Int
  byday : List String
deriving Repr, DecidableEq

structure IcsEventRec where
  name : String
  decoded : Option (IcsDecoded × IcsDecoded)
  summary : String
  location : String
  description : String
  courseName : String
  sectionId : Option String
  eventTypeCode : String
  title : Option String
  instructor : Option String
  rrule : Option IcsRrule
deriving Repr, DecidableEq

structure RawMeeting where
  courseName : String
  eventTypeCode : String
  sectionId : Option String
  title : Option String
  instructor : Option String
  location : Option String
  dayOfWeek : Int
  startTime : String
  endTime : String
  startDate : CivilDate
  endDate : CivilDate
  interval : Int
  note : Option String
deriving Repr, DecidableEq

structure ParsedMeeting where
  eventTypeCode : String
  sectionId : Option String
  title : Option String
  instructor : Option String
  location : Option String
  dayOfWeek : Int
  startTime : String
  endTime : String
  weekPattern : String
  startWeek : Int
  endWeek : Int
  note : Option String
deriving Repr, DecidableEq

structure ParsedCourse where
  name : String
  category : Option String
  meetings : List ParsedMeeting
deriving Repr, DecidableEq

structure ParsedSchedule where
  semesterStartDate : Option CivilDate
  semesterEndDate : Option CivilDate
  courses : List ParsedCourse
deriving Repr, DecidableEq

/-- Python str.strip (whitespace on both ends). -/
def str_trim (s : String) : String :=
  let ws := fun c : Char => c = ' ' ∨ c = '\t' ∨ c = '\n' ∨ c = '\r'
  String.mk (((s.data.dropWhile ws).reverse.dropWhile ws).reverse)

/-- Two-digit zero-padded field of strftime("%H:%M"). -/
def fmt_two (n : Nat) : String :=
  (if n < 10 then "0" else "") ++ nat_decimal n

/-- strftime("%H:%M"). -/
def fmt_hm (h m : Nat) : String := fmt_two h ++ ":" ++ fmt_two m

/-- Python datetime ≤ at minute granularity (the embedding stores no
seconds). -/
def dt_le (d1 : CivilDate) (h1 m1 : Nat) (d2 : CivilDate) (h2 m2 : Nat) : Bool :=
  if dateOrd d1 ≠ dateOrd d2 then dateOrd d1 < dateOrd d2
  else if h1 ≠ h2 then h1 < h2
  else m1 ≤ m2

/-- utils.py WEEKDAY_TOKEN_TO_ISO. -/
def weekday_token_to_iso (s : String) : Option Int :=
  if s = "MO" then some 1 else if s = "TU" then some 2 else if s = "WE" then some 3
  else if s = "TH" then some 4 else if s = "FR" then some 5 else if s = "SA" then some 6
  else if s = "SU" then some 7 else none

/-- Ascending insert without duplicates (for Python sorted(set(...)) on
ints). -/
def insert_sorted_int (x : Int) : List Int → List Int
  | [] => [x]
  | y :: ys => if x < y then x :: y :: ys else if x = y then y :: ys else y :: insert_sorted_int x ys

def sorted_dedup_int (l : List Int) : List Int :=
  l.foldl (fun acc x => insert_sorted_int x acc) []

/-- Ascending insert without duplicates for dates, ordered and compared by
ordinal (chronological order, as Python date ordering). -/
def insert_sorted_date (x : CivilDate) : List CivilDate → List CivilDate
  | [] => [x]
  | y :: ys =>
    if dateOrd x < dateOrd y then x :: y :: ys
    else if dateOrd x = dateOrd y then y :: ys
    else y :: insert_sorted_date x ys

def sorted_dedup_date (l : List CivilDate) : List CivilDate :=
  l.foldl (fun acc x => insert_sorted_date x acc) []

/-- utils.py _parse_byday_values. -/
def parse_byday_values (values : List String) : List Int :=
  sorted_dedup_int (values.foldl (fun days raw =>
    ((str_to_upper raw).splitOn ",").foldl (fun days2 token =>
      let normalized := str_trim token
      if normalized = "" then days2
      else
        let day_token := String.mk (normalized.data.drop (normalized.data.length - 2))
        match weekday_token_to_iso day_token with
        | some iso_day => days2 ++ [iso_day]
        | none => days2) days) [])

/-- utils.py _parse_weekly_recurrence: (interval, recurrence end date,
byday days, count). -/
def parse_weekly_recurrence (rrule : Option IcsRrule) (start_date : CivilDate) :
    Int × CivilDate × List Int × Option Int :=
  match rrule with
  | none => (1, start_date, [], some 1)
  | some rr =>
    let frequency := match rr.freq with
      | [] => ""
      | f :: _ => str_to_upper f
    if frequency ≠ "WEEKLY" then (1, start_date, [], some 1)
    else
      let interval := match rr.interval with
        | [] => 1
        | v :: _ => max 1 v
      let has_until := rr.until_vals ≠ []
      let end1 : CivilDate := match rr.until_vals with
        | IcsDecoded.dtime d _ _ :: _ => d
        | IcsDecoded.donly d :: _ => d
        | IcsDecoded.inval :: _ => start_date
        | [] => addDays start_date (16 * 7)
      let (count, end2) : Option Int × CivilDate := match rr.count with
        | [] => (none, end1)
        | c :: _ =>
          let cv := max 1 c
          (some cv, if has_until then end1 else addDays start_date (cv * interval * 7 + 7))
      let byday_days := parse_byday_values rr.byday
      (interval, if dateOrd start_date ≤ dateOrd end2 then end2 else start_date, byday_days, count)

/-- Inner day loop of utils.py _expand_occurrence_dates; the Bool marks the
early return taken when the occurrence count is reached. -/
def expand_days (start_d end_d : CivilDate) (count : Option Int) (week_start : CivilDate) :
    List Int → List CivilDate → List CivilDate × Bool
  | [], acc => (acc, false)
  | day :: rest, acc =>
    let occurrence_date := addDays week_start (day - 1)
    if dateOrd occurrence_date < dateOrd start_d then
      expand_days start_d end_d count week_start rest acc
    else if dateOrd occurrence_date > dateOrd end_d then
      expand_days start_d end_d count week_start rest acc
    else
      let acc2 := acc ++ [occurrence_date]
      match count with
      | some c => if c ≤ (acc2.length : Int) then (acc2, true)
                  else expand_days start_d end_d count week_start rest acc2
      | none => expand_days start_d end_d count week_start rest acc2

/-- Outer guarded while loop of _expand_occurrence_dates (guard < 128). -/
def expand_loop (start_d end_d : CivilDate) (interval : Int) (days : List Int)
    (count : Option Int) (week_anchor : CivilDate) :
    Nat → Nat → List CivilDate → List CivilDate × Bool
  | 0, _, acc => (acc, false)
  | fuel + 1, guard, acc =>
    let week_start := addDays week_anchor ((guard : Int) * max 1 interval * 7)
    if dateOrd week_start > dateOrd (addDays end_d 7) then (acc, false)
    else
      let r := expand_days start_d end_d count week_start days acc
      if r.2 then (r.1, true)
      else expand_loop start_d end_d interval days count week_anchor fuel (guard + 1) r.1

/-- utils.py _expand_occurrence_dates. -/
def expand_occurrence_dates (start_d end_d : CivilDate) (interval : Int)
    (byday_days : List Int) (count : Option Int) : List CivilDate :=
  let days := if byday_days = [] then [isoWeekday start_d] else byday_days
  let week_anchor := addDays start_d (-(isoWeekday start_d - 1))
  let r := expand_loop start_d end_d interval days count week_anchor 128 0 []
  if r.2 then r.1
  else if r.1 = [] then [start_d]
  else sorted_dedup_date r.1

/-- The cursor loop of utils.py _expand_week_indexes (guard < 256). -/
def week_index_loop (end_d semester_start : CivilDate) (step : Int) :
    Nat → CivilDate → List Int → List Int
  | 0, _, acc => acc
  | fuel + 1, cursor, acc =>
    if dateOrd cursor ≤ dateOrd end_d then
      let week_index := Int.fdiv (dateOrd cursor - dateOrd semester_start) 7 + 1
      week_index_loop end_d semester_start step fuel (addDays cursor step) (acc ++ [max 1 week_index])
    else acc

/-- utils.py _expand_week_indexes. -/
def expand_week_indexes (start_d end_d : CivilDate) (interval : Int)
    (semester_start : CivilDate) : List Int :=
  let step : Int := max 1 interval * 7
  let result := week_index_loop end_d semester_start step 256 start_d []
  if result = [] then
    [max 1 (Int.fdiv (dateOrd start_d - dateOrd semester_start) 7 + 1)]
  else sorted_dedup_int result

/-- Python `or None` for stripped strings: empty becomes None. -/
def opt_of_str (s : String) : Option String :=
  if s = "" then none else some s

/-- One iteration of the VEVENT loop of parse_ics_schedule: returns the raw
meetings and date-range candidates this component contributes. -/
def ics_event_step (ev : IcsEventRec) : List RawMeeting × List (CivilDate × CivilDate) :=
  if ev.name ≠ "VEVENT" then ([], [])
  else
    match ev.decoded with
    | none => ([], [])
    | some (ds, de) =>
      let start_date_value : Option CivilDate := match ds with
        | IcsDecoded.dtime d _ _ => some d
        | IcsDecoded.donly d => some d
        | IcsDecoded.inval => none
      let end_date_value : Option CivilDate := match de with
        | IcsDecoded.dtime d _ _ => some d
        | IcsDecoded.donly d => some (addDays d (-1))
        | IcsDecoded.inval => none
      let candidates : List (CivilDate × CivilDate) :=
        match start_date_value, end_date_value with
        | some s, some e => [(s, if dateOrd e < dateOrd s then s else e)]
        | _, _ => []
      match ds, de with
      | IcsDecoded.dtime d1 h1 m1, IcsDecoded.dtime d2 h2 m2 =>
        if dt_le d2 h2 m2 d1 h1 m1 then ([], candidates)
        else if str_trim ev.summary = "" then ([], candidates)
        else if ev.courseName = "" then ([], candidates)
        else
          let location := opt_of_str (str_trim ev.location)
          let description := str_trim ev.description
          let rec_result := parse_weekly_recurrence ev.rrule d1
          let occurrence_dates := expand_occurrence_dates d1 rec_result.2.1
            rec_result.1 rec_result.2.2.1 rec_result.2.2.2
          (occurrence_dates.map (fun occurrence_date =>
            { courseName := ev.courseName
              eventTypeCode := str_to_upper ev.eventTypeCode
              sectionId := ev.sectionId
              title := ev.title
              instructor := ev.instructor
              location := location
              dayOfWeek := isoWeekday occurrence_date
              startTime := fmt_hm h1 m1
              endTime := fmt_hm h2 m2
              startDate := occurrence_date
              endDate := occurrence_date
              interval := 1
              note := opt_of_str description }), candidates)
      | _, _ => ([], candidates)

/-- The VEVENT loop of parse_ics_schedule, accumulating raw meetings and
date-range candidates in order. -/
def ics_loop (events : List IcsEventRec) : List RawMeeting × List (CivilDate × CivilDate) :=
  events.foldl (fun st ev =>
    let r := ics_event_step ev
    (st.1 ++ r.1, st.2 ++ r.2)) ([], [])

/-- Python min over a nonempty list of dates (seeded with a first value). -/
def min_date (d : CivilDate) (l : List CivilDate) : CivilDate :=
  l.foldl (fun a b => if dateOrd b < dateOrd a then b else a) d

def max_date (d : CivilDate) (l : List CivilDate) : CivilDate :=
  l.foldl (fun a b => if dateOrd a < dateOrd b then b else a) d

/-- utils.py extract_category: leading 2-4 letter code followed by a digit,
else a purely alphabetic first word longer than one character. -/
def extract_category (course_name : String) : Option String :=
  if course_name = "" then none
  else
    let stripped := str_trim course_name
    let letters := stripped.data.takeWhile (fun c =>
      (65 ≤ c.toNat ∧ c.toNat ≤ 90) ∨ (97 ≤ c.toNat ∧ c.toNat ≤ 122))
    let digit_next : Bool := match stripped.data.drop letters.length with
      | c :: _ => 48 ≤ c.toNat && c.toNat ≤ 57
      | [] => false
    if 2 ≤ letters.length ∧ letters.length ≤ 4 ∧ digit_next = true then
      some (str_to_upper (String.mk letters))
    else
      let first_word := match (str_trim course_name).splitOn " " with
        | [] => ""
        | w :: _ => w
      if first_word ≠ "" ∧
          first_word.data.all (fun c =>
            (65 ≤ c.toNat ∧ c.toNat ≤ 90) ∨ (97 ≤ c.toNat ∧ c.toNat ≤ 122)) ∧
          1 < first_word.length then
        some first_word
      else none

/-- The meeting-signature key of the grouping step (the Python tuple
(eventTypeCode, sectionId, title, instructor, location, dayOfWeek,
startTime, endTime)). -/
structure MeetingKey where
  eventTypeCode : String
  sectionId : Option String
  title : Option String
  instructor : Option String
  location : Option String
  dayOfWeek : Int
  startTime : String
  endTime : String
deriving Repr, DecidableEq

/-- The per-signature aggregate built by the grouping loop. -/
structure MeetingAggregate where
  eventTypeCode : String
  sectionId : Option String
  title : Option String
  instructor : Option String
  location : Option String
  dayOfWeek : Int
  startTime : String
  endTime : String
  weeks : List Int
  note : Option String
deriving Repr, DecidableEq

def meeting_key_of (item : RawMeeting) : MeetingKey :=
  { eventTypeCode := item.eventTypeCode, sectionId := item.sectionId,
    title := item.title, instructor := item.instructor, location := item.location,
    dayOfWeek := item.dayOfWeek, startTime := item.startTime, endTime := item.endTime }

/-- Python `not note` for an optional string (None and "" are falsy). -/
def note_falsy : Option String → Bool
  | none => true
  | some s => s == ""

/-- groups.setdefault(meeting_key, aggregate) plus weeks.update and the
note backfill, on an insertion-ordered association list. -/
def update_course_map (key : MeetingKey) (weeks : List Int) (item : RawMeeting) :
    List (MeetingKey × MeetingAggregate) → List (MeetingKey × MeetingAggregate)
  | [] =>
    [(key, { eventTypeCode := item.eventTypeCode, sectionId := item.sectionId,
             title := item.title, instructor := item.instructor,
             location := item.location, dayOfWeek := item.dayOfWeek,
             startTime := item.startTime, endTime := item.endTime,
             weeks := sorted_dedup_int weeks,
             note := if note_falsy none ∧ ¬note_falsy item.note then item.note else none })]
  | (k, agg) :: rest =>
    if k = key then
      (k, { agg with
            weeks := weeks.foldl (fun acc w => insert_sorted_int w acc) agg.weeks,
            note := if note_falsy agg.note ∧ ¬note_falsy item.note then item.note
                    else agg.note }) :: rest
    else (k, agg) :: update_course_map key weeks item rest

/-- grouped_by_course.setdefault(course_name, {}) plus the meeting update. -/
def update_grouped (course_name : String) (key : MeetingKey) (weeks : List Int)
    (item : RawMeeting) :
    List (String × List (MeetingKey × MeetingAggregate)) →
      List (String × List (MeetingKey × MeetingAggregate))
  | [] => [(course_name, update_course_map key weeks item [])]
  | (c, cmap) :: rest =>
    if c = course_name then (c, update_course_map key weeks item cmap) :: rest
    else (c, cmap) :: update_grouped course_name key weeks item rest

/-- Stable ascending insertion (Python sorted is stable; an element is
placed after all existing elements that are ≤ it). -/
def insort_by {α : Type} (le : α → α → Bool) : α → List α → List α
  | x, [] => [x]
  | x, y :: ys => if le y x then y :: insort_by le x ys else x :: y :: ys

def sort_by {α : Type} (le : α → α → Bool) (l : List α) : List α :=
  l.foldl (fun acc x => insort_by le x acc) []

/-- Python string ≤. -/
def str_le (a b : String) : Bool := !str_lt b a

/-- The meetings.sort key (dayOfWeek, startTime, eventTypeCode,
sectionId or ""). -/
def meeting_sort_le (a b : ParsedMeeting) : Bool :=
  if a.dayOfWeek ≠ b.dayOfWeek then a.dayOfWeek < b.dayOfWeek
  else if a.startTime ≠ b.startTime then str_lt a.startTime b.startTime
  else if a.eventTypeCode ≠ b.eventTypeCode then str_lt a.eventTypeCode b.eventTypeCode
  else
    let sa := match a.sectionId with | none => "" | some s => s
    let sb := match b.sectionId with | none => "" | some s => s
    str_le sa sb

/-- The meeting list a course aggregate map produces: weekPattern, startWeek
and endWeek resolved per aggregate, then the stable sort. -/
def meetings_of_course_map (cmap : List (MeetingKey × MeetingAggregate)) :
    List ParsedMeeting :=
  sort_by meeting_sort_le (cmap.map (fun kv =>
    let aggregate := kv.2
    let weeks := aggregate.weeks
    { eventTypeCode := aggregate.eventTypeCode
      sectionId := aggregate.sectionId
      title := aggregate.title
      instructor := aggregate.instructor
      location := aggregate.location
      dayOfWeek := aggregate.dayOfWeek
      startTime := aggregate.startTime
      endTime := aggregate.endTime
      weekPattern := resolve_week_pattern weeks
      startWeek := weeks.getD 0 0
      endWeek := weeks.getD (weeks.length - 1) 0
      note := aggregate.note }))

/-- utils.py parse_ics_schedule over the decoded VEVENT records. -/
def parse_ics_schedule (events : List IcsEventRec) : ParsedSchedule :=
  let loop_result := ics_loop events
  let raw_meetings := loop_result.1
  let date_range_candidates := loop_result.2
  match raw_meetings with
  | [] =>
    match date_range_candidates with
    | [] => { semesterStartDate := none, semesterEndDate := none, courses := [] }
    | c :: cs =>
      { semesterStartDate := some (min_date c.1 (cs.map Prod.fst))
        semesterEndDate := some (max_date c.2 (cs.map Prod.snd))
        courses := [] }
  | m :: ms =>
    let semester_start0 := min_date m.startDate (ms.map RawMeeting.startDate)
    let semester_end0 := max_date m.endDate (ms.map RawMeeting.endDate)
    let semester_start := match date_range_candidates with
      | [] => semester_start0
      | c :: cs => min_date semester_start0 (c.1 :: cs.map Prod.fst)
    let semester_end := match date_range_candidates with
      | [] => semester_end0
      | c :: cs => max_date semester_end0 (c.2 :: cs.map Prod.snd)
    let grouped := raw_meetings.foldl (fun acc item =>
      update_grouped item.courseName (meeting_key_of item)
        (expand_week_indexes item.startDate item.endDate item.interval semester_start)
        item acc) []
    { semesterStartDate := some semester_start
      semesterEndDate := some semester_end
      courses := (sort_by str_le (grouped.map Prod.fst)).map (fun course_name =>
        { name := course_name
          category := extract_category course_name
          meetings := match grouped.lookup course_name with
            | some cmap => meetings_of_course_map cmap
            | none => [] }) }

/-- The guard chain of the VEVENT loop: true exactly when the component
contributes weekly raw meetings (a datetime-valued VEVENT with positive
duration, a non-blank summary, and a non-empty derived course name). -/
def event_usable (ev : IcsEventRec) : Bool :=
  ev.name == "VEVENT" &&
  (match ev.decoded with
   | some (IcsDecoded.dtime d1 h1 m1, IcsDecoded.dtime d2 h2 m2) =>
     !(dt_le d2 h2 m2 d1 h1 m1) && !(str_trim ev.summary == "") && !(ev.courseName == "")
   | _ => false)


def undecodable_event : IcsEventRec :=
  { name := "VEVENT", decoded := none, summary := "x",
    location := "", description := "", courseName := "X", sectionId := none,
    eventTypeCode := "LECTURE", title := none, instructor := none,
    rrule := none }


/-! ## Theorems -/

/-- C1: the claim says a meeting-signature group whose sorted distinct week
indices have a constant gap of exactly 2 is classified as weekPattern
ALTERNATING.  The code (utils.py _resolve_week_pattern) instead emits the
legacy literals "ODD"/"EVEN", which the rest of the code base rejects:
main.py normalize_week_pattern — applied to every imported meeting —
accepts only EVERY and ALTERNATING (422 otherwise, modelled as none), and
matches_week_pattern never matches the legacy literals, so such patterns
could never materialize.  Evaluated on the gap-2 groups [1,3,5] and
[2,4,6]; the min/max bookkeeping is unaffected.  This contradicts
migrate_week_pattern_to_alternating.py, which rewrites ODD/EVEN to
ALTERNATING as the current schema value. -/
theorem C1_resolve_week_pattern_emits_legacy_literal :
    resolve_week_pattern [1, 3, 5] = "ODD" ∧
    resolve_week_pattern [2, 4, 6] = "EVEN" ∧
    "ODD" ≠ "ALTERNATING" ∧ "EVEN" ≠ "ALTERNATING" ∧
    normalize_week_pattern "ODD" = none ∧
    normalize_week_pattern "EVEN" = none ∧
    matches_week_pattern "ODD" 1 (some 1) = false ∧
    matches_week_pattern "EVEN" 2 (some 2) = false ∧
    resolve_week_pattern [1, 2, 3] = "EVERY" := by
  decide

/-- C4: within a pattern's effective bounds (and for an enabled, validly
stored pattern, the other resolver guards), the resolver materializes an
occurrence iff the week-pattern check passes; EVERY always matches;
ALTERNATING matches exactly the weeks with (week - anchorWeek) mod 2 = 0,
anchorWeek = startWeek or 1; with startWeek = 1 this is exactly the odd
weeks. -/
theorem C4_week_pattern_match :
    (∀ (e : CourseEvent) (cn : String) (week max_week : Int) (ws : List String),
      validate_time_range e.start_time e.end_time = true →
      validate_day_of_week e.day_of_week = true →
      e.enable = true →
      orOneWeek e.start_week ≤ week →
      week ≤ orMaxWeek e.end_week max_week →
      ((event_to_week_item e cn week max_week ws).1.isSome ↔
        matches_week_pattern e.week_pattern week (some (orOneWeek e.start_week)) = true)) ∧
    (∀ (week : Int) (sw : Option Int), matches_week_pattern "EVERY" week sw = true) ∧
    (∀ (week : Int) (sw : Option Int),
      matches_week_pattern "ALTERNATING" week sw = true ↔ (week - orOneWeek sw) % 2 = 0) ∧
    (∀ week : Int, matches_week_pattern "ALTERNATING" week (some 1) = true ↔ week % 2 = 1) := by
  refine ⟨?_, ?_, ?_, ?_⟩
  · intro e cn week max_week ws h1 h2 h3 h4 h5
    have hrange : ¬(orOneWeek e.start_week > orMaxWeek e.end_week max_week) :=
      not_lt.2 (le_trans h4 h5)
    have hout : ¬(week < orOneWeek e.start_week ∨ week > orMaxWeek e.end_week max_week) := by
      push_neg
      exact ⟨h4, h5⟩
    by_cases hm : matches_week_pattern e.week_pattern week (some (orOneWeek e.start_week)) = true
    · simp [event_to_week_item, h1, h2, h3, hrange, hout, hm]
    · simp [event_to_week_item, h1, h2, h3, hrange, hout, hm]
  · intro week sw
    rfl
  · intro week sw
    have h : matches_week_pattern "ALTERNATING" week sw = ((week - orOneWeek sw) % 2 == 0) := rfl
    rw [h, beq_iff_eq]
  · intro week
    have h : matches_week_pattern "ALTERNATING" week (some 1) = ((week - 1) % 2 == 0) := rfl
    rw [h, beq_iff_eq]
    omega

/-- C4 witness: concrete instantiation (ALTERNATING pattern, startWeek 1,
week 3 within bounds) discharging every hypothesis. -/
theorem C4_week_pattern_match_witness :
    ((event_to_week_item
      { id := "e1", course_id := "c1", event_type_code := "LECTURE",
        section_id := none, title := none, day_of_week := 2,
        start_time := "10:00", end_time := "11:00",
        week_pattern := "ALTERNATING", start_week := some 1,
        end_week := some 16, enable := true, skip := false, note := none }
      "Course" 3 16 []).1.isSome ↔
      matches_week_pattern "ALTERNATING" 3 (some (orOneWeek (some 1))) = true) :=
  C4_week_pattern_match.1
    { id := "e1", course_id := "c1", event_type_code := "LECTURE",
      section_id := none, title := none, day_of_week := 2,
      start_time := "10:00", end_time := "11:00",
      week_pattern := "ALTERNATING", start_week := some 1,
      end_week := some 16, enable := true, skip := false, note := none }
    "Course" 3 16 [] (by decide) (by decide) (by decide) (by decide) (by decide)

/-- C5: for a validly stored pattern with a coherent week range, any week
strictly outside [effectiveStart, effectiveEnd] resolves to no occurrence
and leaves the warnings list untouched. -/
theorem C5_out_of_range_silent
    (e : CourseEvent) (cn : String) (week max_week : Int) (ws : List String)
    (h1 : validate_time_range e.start_time e.end_time = true)
    (h2 : validate_day_of_week e.day_of_week = true)
    (h3 : orOneWeek e.start_week ≤ orMaxWeek e.end_week max_week)
    (h4 : week < orOneWeek e.start_week ∨ week > orMaxWeek e.end_week max_week) :
    event_to_week_item e cn week max_week ws = (none, ws) := by
  have hrange : ¬(orOneWeek e.start_week > orMaxWeek e.end_week max_week) := not_lt.2 h3
  simp [event_to_week_item, h1, h2, hrange, h4]

/-- C5 witness: a concrete EVERY pattern bounded to weeks 2..4, resolved at
week 5, yields no occurrence and no warning. -/
theorem C5_out_of_range_silent_witness :
    event_to_week_item
      { id := "e1", course_id := "c1", event_type_code := "LECTURE",
        section_id := none, title := none, day_of_week := 2,
        start_time := "10:00", end_time := "11:00",
        week_pattern := "EVERY", start_week := some 2,
        end_week := some 4, enable := true, skip := false, note := none }
      "Course" 5 16 ["w0"] = (none, ["w0"]) :=
  C5_out_of_range_silent
    { id := "e1", course_id := "c1", event_type_code := "LECTURE",
      section_id := none, title := none, day_of_week := 2,
      start_time := "10:00", end_time := "11:00",
      week_pattern := "EVERY", start_week := some 2,
      end_week := some 4, enable := true, skip := false, note := none }
    "Course" 5 16 ["w0"] (by decide) (by decide) (by decide) (by decide)

/-- C6: the export merge loop drops every skipped occurrence from the
calendar-interchange (ics) payload regardless of mode, drops skipped
occurrences from structured payloads under HIDE_SKIPPED, retains them with
renderState SKIPPED_GRAY under GRAY_SKIPPED, and retains every non-skipped
occurrence with renderState NORMAL; the merged list is exactly the ordered
filter of the week's items under this per-item policy. -/
theorem C6_skip_render_policy :
    (∀ (mode : SkipRenderMode) (item : Item), item.skip = true →
      apply_render_policy "ics" mode item = none) ∧
    (∀ (fmt : String) (item : Item), fmt ≠ "ics" → item.skip = true →
      apply_render_policy fmt SkipRenderMode.HIDE_SKIPPED item = none) ∧
    (∀ (fmt : String) (item : Item), fmt ≠ "ics" → item.skip = true →
      apply_render_policy fmt SkipRenderMode.GRAY_SKIPPED item =
        some { item with render_state := some "SKIPPED_GRAY" }) ∧
    (∀ (fmt : String) (mode : SkipRenderMode) (item : Item), item.skip = false →
      apply_render_policy fmt mode item = some { item with render_state := some "NORMAL" }) ∧
    (∀ (fmt : String) (mode : SkipRenderMode) (items : List Item),
      merge_week_items fmt mode items = items.filterMap (apply_render_policy fmt mode)) := by
  refine ⟨?_, ?_, ?_, ?_, ?_⟩
  · intro mode item h
    simp [apply_render_policy, h]
  · intro fmt item hf h
    simp [apply_render_policy, h, hf]
  · intro fmt item hf h
    simp [apply_render_policy, h, hf]
  · intro fmt mode item h
    simp [apply_render_policy, h]
  · intro fmt mode items
    induction items with
    | nil => simp [merge_week_items]
    | cons item rest ih =>
      simp only [merge_week_items, List.filterMap_cons]
      cases apply_render_policy fmt mode item <;> simp [ih]

/-- C6 witness: concrete skipped and non-skipped items under both modes and
both export families. -/
theorem C6_skip_render_policy_witness :
    apply_render_policy "ics" SkipRenderMode.GRAY_SKIPPED
      { (default : Item) with skip := true } = none ∧
    apply_render_policy "png" SkipRenderMode.HIDE_SKIPPED
      { (default : Item) with skip := true } = none ∧
    apply_render_policy "png" SkipRenderMode.GRAY_SKIPPED
      { (default : Item) with skip := true } =
      some { (default : Item) with skip := true, render_state := some "SKIPPED_GRAY" } ∧
    apply_render_policy "pdf" SkipRenderMode.HIDE_SKIPPED (default : Item) =
      some { (default : Item) with render_state := some "NORMAL" } :=
  ⟨C6_skip_render_policy.1 SkipRenderMode.GRAY_SKIPPED _ rfl,
   C6_skip_render_policy.2.1 "png" _ (by decide) rfl,
   C6_skip_render_policy.2.2.1 "png" _ (by decide) rfl,
   C6_skip_render_policy.2.2.2.1 "pdf" SkipRenderMode.HIDE_SKIPPED _ rfl⟩

/-- C7: every serialized calendar entry's date is
semesterStart + (week-1)*7 + (dayOfWeek-1) days with the stored
times-of-day, one discrete entry per occurrence; concretely, with semester
start 2026-01-05, the pattern dayOfWeek=2, 10:00-11:00, EVERY, weeks 1-16
resolved at week 5 yields exactly one occurrence serialized with date
2026-02-03, start 10:00 and end 11:00. -/
theorem C7_ics_date_derivation :
    (∀ (s : CivilDate) (w d : Int), week_date s w d = addDays s ((w - 1) * 7 + (d - 1))) ∧
    (∀ (s : CivilDate) (items : List Item),
      (export_ics_entries s items).length = items.length) ∧
    (∀ (s : CivilDate) (items : List Item) (e : IcsEntry),
      e ∈ export_ics_entries s items → ∃ item ∈ items,
        e.event_date = week_date s item.week item.day_of_week ∧
        e.dtstart_time = parse_time_value item.start_time ∧
        e.dtend_time = parse_time_value item.end_time ∧
        e.uid = item.event_id ++ "-" ++ toString item.week ++ "@semestra") ∧
    ((export_ics_entries ⟨2026, 1, 5⟩
        ((event_to_week_item
          { id := "ev1", course_id := "c1", event_type_code := "LECTURE",
            section_id := none, title := none, day_of_week := 2,
            start_time := "10:00", end_time := "11:00",
            week_pattern := "EVERY", start_week := some 1,
            end_week := some 16, enable := true, skip := false, note := none }
          "Course" 5 16 []).1.toList)).map
        (fun e => (e.event_date, e.dtstart_time, e.dtend_time)) =
      [(⟨2026, 2, 3⟩, some (10, 0), some (11, 0))]) := by
  refine ⟨fun s w d => rfl, fun s items => by simp [export_ics_entries], ?_, by decide⟩
  intro s items e he
  simp only [export_ics_entries, List.mem_map] at he
  obtain ⟨item, hitem, rfl⟩ := he
  exact ⟨item, hitem, rfl, rfl, rfl, rfl⟩

/-- C7 witness: the membership part applied to the concrete singleton
payload of the week-5 occurrence. -/
theorem C7_ics_date_derivation_witness :
    ∃ item ∈ [sample_item "c1" "10:00" "11:00"],
      (IcsEntry.mk "e-c1-2@semestra" "Course c1 LECTURE" ⟨2026, 1, 14⟩
          (some (10, 0)) (some (11, 0)) none).event_date =
        week_date ⟨2026, 1, 5⟩ item.week item.day_of_week ∧
      (IcsEntry.mk "e-c1-2@semestra" "Course c1 LECTURE" ⟨2026, 1, 14⟩
          (some (10, 0)) (some (11, 0)) none).dtstart_time =
        parse_time_value item.start_time ∧
      (IcsEntry.mk "e-c1-2@semestra" "Course c1 LECTURE" ⟨2026, 1, 14⟩
          (some (10, 0)) (some (11, 0)) none).dtend_time =
        parse_time_value item.end_time ∧
      (IcsEntry.mk "e-c1-2@semestra" "Course c1 LECTURE" ⟨2026, 1, 14⟩
          (some (10, 0)) (some (11, 0)) none).uid =
        item.event_id ++ "-" ++ toString item.week ++ "@semestra" :=
  C7_ics_date_derivation.2.2.1 ⟨2026, 1, 5⟩ [sample_item "c1" "10:00" "11:00"]
    (IcsEntry.mk "e-c1-2@semestra" "Course c1 LECTURE" ⟨2026, 1, 14⟩
      (some (10, 0)) (some (11, 0)) none) (by decide)

/-- C3: the claim (and the spec's Disjoint-Set contract) says find is
implemented iteratively with no unbounded recursion; main.py find_parent is
in fact defined by self-recursion (embedded here as the fueled find_parent,
whose nesting count is find_parent_depth), and the spec's own design notes
flag the recursive path compression as the thing to make iterative.  On the
reachable parent state produced by the pair loop for three occurrences
whose overlap edges are (0,2) and (1,2), the parent chain is 2 -> 0 -> 1
and find_parent(2) performs two nested self-calls, so its call depth grows
with the chain instead of being constant. -/
theorem C3_find_parent_is_recursive :
    (run_unions [sample_item "A" "10:00" "10:30", sample_item "B" "11:00" "11:30",
        sample_item "C" "10:15" "11:15"] 4) 2 = 0 ∧
    (run_unions [sample_item "A" "10:00" "10:30", sample_item "B" "11:00" "11:30",
        sample_item "C" "10:15" "11:15"] 4) 0 = 1 ∧
    (run_unions [sample_item "A" "10:00" "10:30", sample_item "B" "11:00" "11:30",
        sample_item "C" "10:15" "11:15"] 4) 1 = 1 ∧
    find_parent_depth 4
      (run_unions [sample_item "A" "10:00" "10:30", sample_item "B" "11:00" "11:30",
        sample_item "C" "10:15" "11:15"] 4) 2 = 2 := by
  refine ⟨?_, ?_, ?_, ?_⟩ <;> decide

theorem iterp_add (p : Nat → Nat) (a b x : Nat) :
    iterp p (a + b) x = iterp p b (iterp p a x) := by
  induction a generalizing x with
  | zero => simp [iterp]
  | succ a ih =>
    have h : a + 1 + b = (a + b) + 1 := by omega
    rw [h]
    show iterp p (a + b) (p x) = iterp p b (iterp p (a + 1) x)
    rw [ih (p x)]
    rfl

theorem iterp_fix {p : Nat → Nat} {r : Nat} (h : p r = r) (n : Nat) :
    iterp p n r = r := by
  induction n with
  | zero => rfl
  | succ n ih =>
    show iterp p n (p r) = r
    rw [h]
    exact ih

theorem root_le_iter {p : Nat → Nat} {x r : Nat} {n : Nat}
    (hn : iterp p n x = r) (hr : p r = r) {m : Nat} (hle : n ≤ m) :
    iterp p m x = r := by
  have h : m = n + (m - n) := by omega
  rw [h, iterp_add, hn, iterp_fix hr]

theorem root_unique {p : Nat → Nat} {x r s : Nat}
    (h1 : Root p x r) (h2 : Root p x s) : r = s := by
  obtain ⟨n, hn, hr⟩ := h1
  obtain ⟨m, hm, hs⟩ := h2
  rcases Nat.le_total n m with h | h
  · rw [← hm, root_le_iter hn hr h]
  · rw [← hn, root_le_iter hm hs h]

theorem root_fix {p : Nat → Nat} {x r : Nat} (h : Root p x r) : p r = r :=
  h.choose_spec.2

theorem root_refl {p : Nat → Nat} {x : Nat} (h : p x = x) : Root p x x :=
  ⟨0, rfl, h⟩

theorem root_step {p : Nat → Nat} {x r : Nat} (h : Root p (p x) r) : Root p x r := by
  obtain ⟨n, hn, hr⟩ := h
  exact ⟨n + 1, hn, hr⟩

theorem root_step_rev {p : Nat → Nat} {x r : Nat} (h : Root p x r) (hx : p x ≠ x) :
    Root p (p x) r := by
  obtain ⟨n, hn, hr⟩ := h
  cases n with
  | zero =>
    have hxr : x = r := hn
    exact absurd (hxr ▸ hr) hx
  | succ n => exact ⟨n, hn, hr⟩

theorem root_mem_aux {A : Finset Nat} {p : Nat → Nat} (hinv : UFInv A p) :
    ∀ (n x : Nat) (r : Nat), x ∈ A → iterp p n x = r → r ∈ A := by
  intro n
  induction n with
  | zero => intro x r hx h; exact h ▸ hx
  | succ n ih => intro x r hx h; exact ih (p x) r (hinv.2.1 x hx) h

theorem root_mem {A : Finset Nat} {p : Nat → Nat} {x r : Nat}
    (hinv : UFInv A p) (hx : x ∈ A) (h : Root p x r) : r ∈ A := by
  obtain ⟨n, hn, _⟩ := h
  exact root_mem_aux hinv n x r hx hn

theorem iterp_card_fix {A : Finset Nat} {p : Nat → Nat} (hinv : UFInv A p) (x : Nat) :
    p (iterp p A.card x) = iterp p A.card x := by
  by_contra hfix
  have hnonfix : ∀ i, i ≤ A.card → p (iterp p i x) ≠ iterp p i x := by
    intro i hi hcontra
    apply hfix
    have h : iterp p A.card x = iterp p i x := root_le_iter rfl hcontra hi
    rw [h]
    exact hcontra
  have hmem : ∀ i, i ≤ A.card → iterp p i x ∈ A := by
    intro i hi
    by_contra hnot
    exact hnonfix i hi (hinv.1 _ hnot)
  have hinj : ∀ i, i ≤ A.card → ∀ j, j ≤ A.card → iterp p i x = iterp p j x → i = j := by
    have key : ∀ i j, i < j → j ≤ A.card → iterp p i x = iterp p j x → False := by
      intro i j hij hj heq
      have hcyc : iterp p ((j - i - 1) + 1) (iterp p i x) = iterp p i x := by
        have h : iterp p (i + (j - i)) x = iterp p j x := by congr 1; omega
        have h2 : (j - i - 1) + 1 = j - i := by omega
        rw [h2, ← iterp_add, h, ← heq]
      exact hnonfix i (by omega) (hinv.2.2 _ _ hcyc)
    intro i hi j hj heq
    rcases Nat.lt_trichotomy i j with h | h | h
    · exact absurd (key i j h hj heq) (by simp)
    · exact h
    · exact absurd (key j i h hi heq.symm) (by simp)
  have hcard : (Finset.range (A.card + 1)).card ≤ A.card := by
    apply Finset.card_le_card_of_injOn (fun i => iterp p i x)
    · intro i hi
      exact hmem i (by simpa using Nat.lt_succ_iff.mp (Finset.mem_range.mp hi))
    · intro i hi j hj h
      simp only [Finset.coe_range, Set.mem_Iio] at hi hj
      exact hinj i (by omega) j (by omega) h
  simp [Finset.card_range] at hcard

theorem root_total {A : Finset Nat} {p : Nat → Nat} (hinv : UFInv A p) (x : Nat) :
    Root p x (iterp p A.card x) :=
  ⟨A.card, rfl, iterp_card_fix hinv x⟩

theorem iterp_succ_right (p : Nat → Nat) (n x : Nat) :
    iterp p (n + 1) x = p (iterp p n x) := by
  rw [iterp_add p n 1 x]
  rfl

theorem pupdate_self (q : Nat → Nat) (x v : Nat) : pupdate q x v x = v := by
  simp [pupdate]

theorem pupdate_other (q : Nat → Nat) {x : Nat} (v : Nat) {y : Nat} (hy : y ≠ x) :
    pupdate q x v y = q y := by
  simp [pupdate, hy]

theorem pupdate_orbit {q : Nat → Nat} {x t : Nat} (ht : q t = t) (hxt : x ≠ t) :
    ∀ m, iterp (pupdate q x t) (m + 1) x = t := by
  have hfix : pupdate q x t t = t := by rw [pupdate_other q t (fun h => hxt h.symm), ht]
  intro m
  rw [iterp_succ_right]
  have horb : ∀ k, iterp (pupdate q x t) k x = x ∨ iterp (pupdate q x t) k x = t := by
    intro k
    induction k with
    | zero => exact Or.inl rfl
    | succ k ih =>
      rw [iterp_succ_right]
      rcases ih with h | h
      · rw [h, pupdate_self]; exact Or.inr rfl
      · rw [h, hfix]; exact Or.inr rfl
  rcases horb m with h | h
  · rw [h, pupdate_self]
  · rw [h, hfix]

theorem pupdate_acyclic {q : Nat → Nat} {x t : Nat}
    (hacyc : ∀ z k, iterp q (k + 1) z = z → q z = z)
    (ht : q t = t) (hxt : x ≠ t) :
    ∀ z k, iterp (pupdate q x t) (k + 1) z = z → pupdate q x t z = z := by
  intro z k hcyc
  by_contra hz
  by_cases hx_on : ∃ i, i ≤ k ∧ iterp (pupdate q x t) i z = x
  · obtain ⟨i, hik, hi⟩ := hx_on
    have hz_eq : z = t := by
      have h1 : iterp (pupdate q x t) (k + 1) z =
          iterp (pupdate q x t) (k + 1 - i) (iterp (pupdate q x t) i z) := by
        rw [← iterp_add]; congr 1; omega
      have h2 : k + 1 - i = (k - i) + 1 := by omega
      rw [hi, h2, pupdate_orbit ht hxt] at h1
      rw [← hcyc, h1]
    apply hz
    rw [hz_eq, pupdate_other q t (fun h => hxt h.symm), ht]
  · push_neg at hx_on
    have heq : ∀ i, i ≤ k + 1 → iterp (pupdate q x t) i z = iterp q i z := by
      intro i hi
      induction i with
      | zero => rfl
      | succ i ih =>
        have hih := ih (by omega)
        rw [iterp_succ_right, iterp_succ_right, hih,
          pupdate_other q t (hih ▸ hx_on i (by omega))]
    have hqcyc : iterp q (k + 1) z = z := by rw [← heq (k + 1) (le_refl _), hcyc]
    have hqz : q z = z := hacyc z k hqcyc
    apply hz
    have hzx : z ≠ x := by
      have h0 := hx_on 0 (by omega)
      exact h0
    rw [pupdate_other q t hzx, hqz]


theorem compress_root_to {A : Finset Nat} {q : Nat → Nat} {x r : Nat}
    (hinv : UFInv A q) (hroot : Root q x r) (hne : x ≠ r) :
    ∀ z s, Root q z s → Root (pupdate q x r) z s := by
  have hqx : q x ≠ x := by
    intro h
    exact hne (root_unique (root_refl h) hroot)
  have hrfix : q r = r := root_fix hroot
  have hfix : pupdate q x r r = r := by
    rw [pupdate_other q r (fun h => hne h.symm), hrfix]
  have aux : ∀ n z s, iterp q n z = s → q s = s → Root (pupdate q x r) z s := by
    intro n
    induction n with
    | zero =>
      intro z s h hs
      obtain rfl : z = s := h
      have hzx : z ≠ x := by
        intro h2
        rw [h2] at hs
        exact hqx hs
      exact root_refl (by rw [pupdate_other q r hzx, hs])
    | succ n ih =>
      intro z s h hs
      by_cases hz : z = x
      · have hsr : s = r := by
          apply root_unique _ hroot
          rw [← hz]
          exact ⟨n + 1, h, hs⟩
        rw [hsr]
        refine ⟨1, ?_, hfix⟩
        show pupdate q x r z = r
        rw [hz, pupdate_self]
      · by_cases hqz : q z = z
        · have hzs : s = z := by
            rw [← h]
            show iterp q n (q z) = z
            rw [hqz, iterp_fix hqz]
          rw [hzs]
          exact root_refl (by rw [pupdate_other q r hz, hqz])
        · have hstep : Root (pupdate q x r) (q z) s := ih (q z) s h hs
          apply root_step
          rw [pupdate_other q r hz]
          exact hstep
  intro z s h
  obtain ⟨n, hn, hs⟩ := h
  exact aux n z s hn hs

theorem compress_root_from {A : Finset Nat} {q : Nat → Nat} {x r : Nat}
    (hinv : UFInv A q) (hroot : Root q x r) (hne : x ≠ r) :
    ∀ z s, Root (pupdate q x r) z s → Root q z s := by
  have hqx : q x ≠ x := by
    intro h
    exact hne (root_unique (root_refl h) hroot)
  have hrfix : q r = r := root_fix hroot
  have hfix : pupdate q x r r = r := by
    rw [pupdate_other q r (fun h => hne h.symm), hrfix]
  have aux : ∀ n z s, iterp (pupdate q x r) n z = s → pupdate q x r s = s → Root q z s := by
    intro n
    induction n with
    | zero =>
      intro z s h hs
      obtain rfl : z = s := h
      have hzx : z ≠ x := by
        intro h2
        rw [h2, pupdate_self] at hs
        exact hne hs.symm
      rw [pupdate_other q r hzx] at hs
      exact root_refl hs
    | succ n ih =>
      intro z s h hs
      by_cases hz : z = x
      · have h2 : iterp (pupdate q x r) n r = s := by
          rw [← h]
          show iterp (pupdate q x r) n r = iterp (pupdate q x r) n (pupdate q x r z)
          rw [hz, pupdate_self]
        have hsr : s = r := by rw [← h2, iterp_fix hfix]
        rw [hz, hsr]
        exact hroot
      · have hq_z : pupdate q x r z = q z := pupdate_other q r hz
        by_cases hqz : q z = z
        · have hfz : pupdate q x r z = z := by rw [hq_z, hqz]
          have hzs : s = z := by
            rw [← h]
            show iterp (pupdate q x r) n (pupdate q x r z) = z
            rw [hfz, iterp_fix hfz]
          rw [hzs]
          exact root_refl hqz
        · have hstep : Root q (q z) s := by
            apply ih (q z) s _ hs
            rw [← hq_z]
            exact h
          exact root_step hstep
  intro z s h
  obtain ⟨n, hn, hs⟩ := h
  exact aux n z s hn hs

theorem compress_inv {A : Finset Nat} {q : Nat → Nat} {x r : Nat}
    (hinv : UFInv A q) (hroot : Root q x r) (hne : x ≠ r) :
    UFInv A (pupdate q x r) := by
  have hqx : q x ≠ x := by
    intro h
    exact hne (root_unique (root_refl h) hroot)
  have hxA : x ∈ A := by
    by_contra h
    exact hqx (hinv.1 x h)
  have hrA : r ∈ A := root_mem hinv hxA hroot
  refine ⟨?_, ?_, ?_⟩
  · intro y hy
    have hyx : y ≠ x := fun h => hy (h ▸ hxA)
    rw [pupdate_other q r hyx]
    exact hinv.1 y hy
  · intro y hy
    by_cases hyx : y = x
    · rw [hyx, pupdate_self]
      exact hrA
    · rw [pupdate_other q r hyx]
      exact hinv.2.1 y hy
  · exact pupdate_acyclic hinv.2.2 (root_fix hroot) hne

theorem attach_root_to_left {q : Nat → Nat} {ra rb : Nat}
    (hra : q ra = ra) (hrb : q rb = rb) (hne : ra ≠ rb) :
    ∀ z s, Root q z s → s ≠ rb → Root (pupdate q rb ra) z s := by
  have aux : ∀ n z s, iterp q n z = s → q s = s → s ≠ rb →
      Root (pupdate q rb ra) z s := by
    intro n
    induction n with
    | zero =>
      intro z s h hs hsrb
      obtain rfl : z = s := h
      exact root_refl (by rw [pupdate_other q ra hsrb, hs])
    | succ n ih =>
      intro z s h hs hsrb
      by_cases hz : z = rb
      · exfalso
        apply hsrb
        rw [← h, hz]
        have h2 : iterp q (n + 1) rb = rb := by
          show iterp q n (q rb) = rb
          rw [hrb, iterp_fix hrb]
        rw [h2]
      · by_cases hqz : q z = z
        · have hzs : s = z := by
            rw [← h]
            show iterp q n (q z) = z
            rw [hqz, iterp_fix hqz]
          rw [hzs]
          exact root_refl (by rw [pupdate_other q ra hz, hqz])
        · have hstep := ih (q z) s h hs hsrb
          apply root_step
          rw [pupdate_other q ra hz]
          exact hstep
  intro z s h hsrb
  obtain ⟨n, hn, hs⟩ := h
  exact aux n z s hn hs hsrb

theorem attach_root_to_right {q : Nat → Nat} {ra rb : Nat}
    (hra : q ra = ra) (hrb : q rb = rb) (hne : ra ≠ rb) :
    ∀ z, Root q z rb → Root (pupdate q rb ra) z ra := by
  have hafix : pupdate q rb ra ra = ra := by
    rw [pupdate_other q ra hne, hra]
  have hrb_to : Root (pupdate q rb ra) rb ra := by
    refine ⟨1, ?_, hafix⟩
    show pupdate q rb ra rb = ra
    rw [pupdate_self]
  have aux : ∀ n z, iterp q n z = rb → Root (pupdate q rb ra) z ra := by
    intro n
    induction n with
    | zero =>
      intro z h
      obtain rfl : z = rb := h
      exact hrb_to
    | succ n ih =>
      intro z h
      by_cases hz : z = rb
      · rw [hz]
        exact hrb_to
      · have hqz : q z ≠ z := by
          intro hfx
          apply hz
          rw [← h]
          show z = iterp q n (q z)
          rw [hfx, iterp_fix hfx]
        have hstep := ih (q z) h
        apply root_step
        rw [pupdate_other q ra hz]
        exact hstep
  intro z h
  obtain ⟨n, hn, _⟩ := h
  exact aux n z hn

theorem attach_root_from {q : Nat → Nat} {ra rb : Nat}
    (hra : q ra = ra) (hrb : q rb = rb) (hne : ra ≠ rb) :
    ∀ z s, Root (pupdate q rb ra) z s →
      (Root q z s ∧ s ≠ rb) ∨ (Root q z rb ∧ s = ra) := by
  have hafix : pupdate q rb ra ra = ra := by
    rw [pupdate_other q ra hne, hra]
  have aux : ∀ n z s, iterp (pupdate q rb ra) n z = s → pupdate q rb ra s = s →
      (Root q z s ∧ s ≠ rb) ∨ (Root q z rb ∧ s = ra) := by
    intro n
    induction n with
    | zero =>
      intro z s h hs
      obtain rfl : z = s := h
      have hzrb : z ≠ rb := by
        intro h2
        rw [h2, pupdate_self] at hs
        exact hne hs
      rw [pupdate_other q ra hzrb] at hs
      exact Or.inl ⟨root_refl hs, hzrb⟩
    | succ n ih =>
      intro z s h hs
      by_cases hz : z = rb
      · have h2 : iterp (pupdate q rb ra) n ra = s := by
          rw [← h]
          show iterp (pupdate q rb ra) n ra =
            iterp (pupdate q rb ra) n (pupdate q rb ra z)
          rw [hz, pupdate_self]
        have hsra : s = ra := by rw [← h2, iterp_fix hafix]
        exact Or.inr ⟨by rw [hz]; exact root_refl hrb, hsra⟩
      · have hq_z : pupdate q rb ra z = q z := pupdate_other q ra hz
        by_cases hqz : q z = z
        · have hfz : pupdate q rb ra z = z := by rw [hq_z, hqz]
          have hzs : s = z := by
            rw [← h]
            show iterp (pupdate q rb ra) n (pupdate q rb ra z) = z
            rw [hfz, iterp_fix hfz]
          rw [hzs]
          exact Or.inl ⟨root_refl hqz, hz⟩
        · have hstep := ih (q z) s (by rw [← hq_z]; exact h) hs
          rcases hstep with ⟨hr, hsrb⟩ | ⟨hr, hsra⟩
          · exact Or.inl ⟨root_step hr, hsrb⟩
          · exact Or.inr ⟨root_step hr, hsra⟩
  intro z s h
  obtain ⟨n, hn, hs⟩ := h
  exact aux n z s hn hs

theorem attach_inv {A : Finset Nat} {q : Nat → Nat} {ra rb : Nat}
    (hinv : UFInv A q) (hra : q ra = ra) (hrb : q rb = rb) (hne : ra ≠ rb)
    (hraA : ra ∈ A) (hrbA : rb ∈ A) :
    UFInv A (pupdate q rb ra) := by
  refine ⟨?_, ?_, ?_⟩
  · intro y hy
    have hyrb : y ≠ rb := fun h => hy (h ▸ hrbA)
    rw [pupdate_other q ra hyrb]
    exact hinv.1 y hy
  · intro y hy
    by_cases hyrb : y = rb
    · rw [hyrb, pupdate_self]
      exact hraA
    · rw [pupdate_other q ra hyrb]
      exact hinv.2.1 y hy
  · exact pupdate_acyclic hinv.2.2 hra (fun h => hne h.symm)

theorem find_parent_unfold_root (p : Nat → Nat) (x : Nat) (fuel : Nat) (hpx : p x = x) :
    find_parent (fuel + 1) p x = (p, x) := by
  rw [find_parent]
  simp [hpx]

theorem find_parent_unfold_step (p : Nat → Nat) (x : Nat) (fuel : Nat) (hpx : p x ≠ x) :
    find_parent (fuel + 1) p x =
      (pupdate (find_parent fuel p (p x)).1 x (find_parent fuel p (p x)).2,
       (find_parent fuel p (p x)).2) := by
  rw [find_parent]
  simp [hpx]

theorem find_parent_spec {A : Finset Nat} :
    ∀ n (p : Nat → Nat) (x : Nat), UFInv A p →
      p (iterp p n x) = iterp p n x →
      ∀ fuel, n < fuel →
        (find_parent fuel p x).2 = iterp p n x ∧
        Root p x (find_parent fuel p x).2 ∧
        UFInv A (find_parent fuel p x).1 ∧
        (∀ z s, Root (find_parent fuel p x).1 z s ↔ Root p z s) := by
  intro n
  induction n with
  | zero =>
    intro p x hinv hfix fuel hlt
    obtain ⟨f, rfl⟩ : ∃ f, fuel = f + 1 := ⟨fuel - 1, by omega⟩
    have hpx : p x = x := hfix
    rw [find_parent_unfold_root p x f hpx]
    exact ⟨rfl, root_refl hpx, hinv, fun z s => Iff.rfl⟩
  | succ m ih =>
    intro p x hinv hfix fuel hlt
    obtain ⟨f, rfl⟩ : ∃ f, fuel = f + 1 := ⟨fuel - 1, by omega⟩
    by_cases hpx : p x = x
    · rw [find_parent_unfold_root p x f hpx]
      have hx : iterp p (m + 1) x = x := iterp_fix hpx (m + 1)
      exact ⟨hx.symm, root_refl hpx, hinv, fun z s => Iff.rfl⟩
    · rw [find_parent_unfold_step p x f hpx]
      have hfix2 : p (iterp p m (p x)) = iterp p m (p x) := hfix
      have hIH := ih p (p x) hinv hfix2 f (by omega)
      obtain ⟨hval, hroot, hinv2, hiff⟩ := hIH
      have hrootx : Root p x (find_parent f p (p x)).2 := root_step hroot
      have hne : x ≠ (find_parent f p (p x)).2 := by
        intro h
        apply hpx
        have h2 : p (find_parent f p (p x)).2 = (find_parent f p (p x)).2 := root_fix hroot
        rw [← h] at h2
        exact h2
      have hroot1 : Root (find_parent f p (p x)).1 x (find_parent f p (p x)).2 :=
        (hiff x (find_parent f p (p x)).2).mpr hrootx
      refine ⟨hval, hrootx, compress_inv hinv2 hroot1 hne, ?_⟩
      intro z s
      constructor
      · intro h
        exact (hiff z s).mp (compress_root_from hinv2 hroot1 hne z s h)
      · intro h
        exact compress_root_to hinv2 hroot1 hne z s ((hiff z s).mpr h)

theorem uf_union_spec {A : Finset Nat} (p : Nat → Nat) (a b fuel : Nat)
    (hinv : UFInv A p) (hfuel : A.card < fuel) (haA : a ∈ A) (hbA : b ∈ A) :
    ∃ ra rb, Root p a ra ∧ Root p b rb ∧
      UFInv A (uf_union fuel p a b) ∧
      (∀ z s, Root (uf_union fuel p a b) z s ↔
        ((Root p z s ∧ s ≠ rb) ∨ (Root p z rb ∧ s = ra))) := by
  have hspa := find_parent_spec A.card p a hinv (iterp_card_fix hinv a) fuel hfuel
  obtain ⟨hva, hroota, hinva, hiffa⟩ := hspa
  have hspb := find_parent_spec A.card (find_parent fuel p a).1 b hinva
    (iterp_card_fix hinva b) fuel hfuel
  obtain ⟨hvb, hrootb1, hinvb, hiffb⟩ := hspb
  set fa := find_parent fuel p a with hfa
  set fb := find_parent fuel fa.1 b with hfb
  have hrootb : Root p b fb.2 := (hiffa b fb.2).mp hrootb1
  have hiff : ∀ z s, Root fb.1 z s ↔ Root p z s := by
    intro z s
    rw [hiffb z s, hiffa z s]
  refine ⟨fa.2, fb.2, hroota, hrootb, ?_, ?_⟩
  all_goals {
    rw [uf_union]
    by_cases hrr : fa.2 = fb.2
    case neg =>
      rw [if_pos hrr]
      have hfb_ra : fb.1 fa.2 = fa.2 := by
        have h1 : Root p fa.2 fa.2 := root_refl (root_fix hroota)
        exact root_fix ((hiff fa.2 fa.2).mpr h1)
      have hfb_rb : fb.1 fb.2 = fb.2 := root_fix ((hiffb b fb.2).mpr hrootb1)
      have hraA : fa.2 ∈ A := root_mem hinv haA hroota
      have hrbA : fb.2 ∈ A := root_mem hinv hbA hrootb
      first
      | exact attach_inv hinvb hfb_ra hfb_rb hrr hraA hrbA
      | { intro z s
          constructor
          · intro h
            rcases attach_root_from hfb_ra hfb_rb hrr z s h with ⟨h1, h2⟩ | ⟨h1, h2⟩
            · exact Or.inl ⟨(hiff z s).mp h1, h2⟩
            · exact Or.inr ⟨(hiff z fb.2).mp h1, h2⟩
          · intro h
            rcases h with ⟨h1, h2⟩ | ⟨h1, h2⟩
            · exact attach_root_to_left hfb_ra hfb_rb hrr z s ((hiff z s).mpr h1) h2
            · rw [h2]
              exact attach_root_to_right hfb_ra hfb_rb hrr z ((hiff z fb.2).mpr h1) }
    case pos =>
      rw [if_neg (by simpa using hrr)]
      first
      | exact hinvb
      | { intro z s
          rw [hiff z s]
          constructor
          · intro h
            by_cases hs : s = fb.2
            · exact Or.inr ⟨hs ▸ h, hs.trans hrr.symm⟩
            · exact Or.inl ⟨h, hs⟩
          · intro h
            rcases h with ⟨h1, _⟩ | ⟨h1, h2⟩
            · exact h1
            · rw [h2, hrr]
              exact h1 }
  }

theorem uf_union_props {A : Finset Nat} (p : Nat → Nat) (a b fuel : Nat)
    (hinv : UFInv A p) (hfuel : A.card < fuel) (haA : a ∈ A) (hbA : b ∈ A) :
    UFInv A (uf_union fuel p a b) ∧
    same_root (uf_union fuel p a b) a b ∧
    (∀ u v, same_root p u v → same_root (uf_union fuel p a b) u v) ∧
    (∀ u v, same_root (uf_union fuel p a b) u v →
      same_root p u v ∨ (same_root p u a ∧ same_root p v b) ∨
        (same_root p u b ∧ same_root p v a)) := by
  obtain ⟨ra, rb, hra, hrb, hinv2, hchar⟩ := uf_union_spec p a b fuel hinv hfuel haA hbA
  refine ⟨hinv2, ?_, ?_, ?_⟩
  · refine ⟨ra, ?_, (hchar b ra).mpr (Or.inr ⟨hrb, rfl⟩)⟩
    by_cases hab : ra = rb
    · exact (hchar a ra).mpr (Or.inr ⟨hab ▸ hra, rfl⟩)
    · exact (hchar a ra).mpr (Or.inl ⟨hra, hab⟩)
  · rintro u v ⟨s, hu, hv⟩
    by_cases hs : s = rb
    · exact ⟨ra, (hchar u ra).mpr (Or.inr ⟨hs ▸ hu, rfl⟩),
        (hchar v ra).mpr (Or.inr ⟨hs ▸ hv, rfl⟩)⟩
    · exact ⟨s, (hchar u s).mpr (Or.inl ⟨hu, hs⟩), (hchar v s).mpr (Or.inl ⟨hv, hs⟩)⟩
  · rintro u v ⟨s, hu, hv⟩
    rcases (hchar u s).mp hu with ⟨hu1, hu2⟩ | ⟨hu1, hu2⟩ <;>
      rcases (hchar v s).mp hv with ⟨hv1, hv2⟩ | ⟨hv1, hv2⟩
    · exact Or.inl ⟨s, hu1, hv1⟩
    · exact Or.inr (Or.inl ⟨⟨ra, hv2 ▸ hu1, hra⟩, ⟨rb, hv1, hrb⟩⟩)
    · exact Or.inr (Or.inr ⟨⟨rb, hu1, hrb⟩, ⟨ra, hu2 ▸ hv1, hra⟩⟩)
    · exact Or.inl ⟨rb, hu1, hv1⟩

theorem eqvgen_bind {α : Type} {r1 r2 : α → α → Prop}
    (h : ∀ x y, r1 x y → Relation.EqvGen r2 x y) {u v : α} (huv : Relation.EqvGen r1 u v) :
    Relation.EqvGen r2 u v := by
  induction huv with
  | rel x y hxy => exact h x y hxy
  | refl x => exact Relation.EqvGen.refl x
  | symm x y _ ih => exact Relation.EqvGen.symm x y ih
  | trans x y z _ _ ih1 ih2 => exact Relation.EqvGen.trans x y z ih1 ih2

theorem eqvgen_or_eq {α : Type} {r : α → α → Prop} {u v : α}
    (h : Relation.EqvGen (fun x y => r x y ∨ x = y) u v) : Relation.EqvGen r u v ∨ u = v := by
  induction h with
  | rel x y hxy =>
    rcases hxy with h | h
    · exact Or.inl (Relation.EqvGen.rel x y h)
    · exact Or.inr h
  | refl x => exact Or.inr rfl
  | symm x y _ ih =>
    rcases ih with h | h
    · exact Or.inl (Relation.EqvGen.symm x y h)
    · exact Or.inr h.symm
  | trans x y z _ _ ih1 ih2 =>
    rcases ih1 with h1 | h1 <;> rcases ih2 with h2 | h2
    · exact Or.inl (Relation.EqvGen.trans x y z h1 h2)
    · exact Or.inl (h2 ▸ h1)
    · exact Or.inl (h1 ▸ h2)
    · exact Or.inr (h1.trans h2)

theorem same_root_id {u v : Nat} (h : same_root (fun x => x) u v) : u = v := by
  obtain ⟨r, ⟨n, hn, _⟩, ⟨m, hm, _⟩⟩ := h
  have hid : ∀ k x, iterp (fun x : Nat => x) k x = x := by
    intro k
    induction k with
    | zero => intro x; rfl
    | succ k ih => intro x; exact ih x
  rw [hid] at hn hm
  exact hn.trans hm.symm

theorem ufinv_id (A : Finset Nat) : UFInv A (fun x => x) :=
  ⟨fun _ _ => rfl, fun x h => h, fun _ _ _ => rfl⟩

theorem sub_pairs_mem {l : List Nat} {a b : Nat} (h : (a, b) ∈ sub_pairs l) :
    a ∈ l ∧ b ∈ l := by
  induction l with
  | nil => cases h
  | cons x rest ih =>
    rw [sub_pairs, List.mem_append] at h
    rcases h with h | h
    · obtain ⟨y, hy, heq⟩ := List.mem_map.mp h
      have h1 : x = a := congrArg Prod.fst heq
      have h2 : y = b := congrArg Prod.snd heq
      subst h1
      subst h2
      exact ⟨List.mem_cons_self x rest, List.mem_cons_of_mem x hy⟩
    · obtain ⟨h1, h2⟩ := ih h
      exact ⟨List.mem_cons_of_mem x h1, List.mem_cons_of_mem x h2⟩

theorem sub_pairs_complete {l : List Nat} {a b : Nat}
    (ha : a ∈ l) (hb : b ∈ l) (hab : a ≠ b) :
    (a, b) ∈ sub_pairs l ∨ (b, a) ∈ sub_pairs l := by
  induction l with
  | nil => cases ha
  | cons x rest ih =>
    rw [List.mem_cons] at ha hb
    rcases ha with rfl | ha
    · have hbr : b ∈ rest := by
        rcases hb with rfl | hb
        · exact absurd rfl hab
        · exact hb
      exact Or.inl (by rw [sub_pairs, List.mem_append]; exact Or.inl (List.mem_map.mpr ⟨b, hbr, rfl⟩))
    · rcases hb with rfl | hb
      · exact Or.inr (by rw [sub_pairs, List.mem_append]; exact Or.inl (List.mem_map.mpr ⟨a, ha, rfl⟩))
      · rcases ih ha hb with h | h
        · exact Or.inl (by rw [sub_pairs, List.mem_append]; exact Or.inr h)
        · exact Or.inr (by rw [sub_pairs, List.mem_append]; exact Or.inr h)

theorem run_unions_eq_union_fold (items : List Item) (fuel : Nat) :
    run_unions items fuel = union_fold items fuel (sub_pairs (active_indices items)) (fun x => x) :=
  rfl

theorem union_fold_cons (items : List Item) (fuel : Nat) (ab : Nat × Nat)
    (L : List (Nat × Nat)) (p0 : Nat → Nat) :
    union_fold items fuel (ab :: L) p0 =
      union_fold items fuel L
        (if should_union items ab.1 ab.2 then uf_union fuel p0 ab.1 ab.2 else p0) :=
  rfl

theorem should_union_symm {items : List Item} {i j : Nat}
    (h : should_union items i j = true) : should_union items j i = true := by
  simp only [should_union, Bool.and_eq_true, Bool.not_eq_true', beq_eq_false_iff_ne,
    beq_iff_eq] at h ⊢
  obtain ⟨⟨⟨h1, h2⟩, h3⟩, h4⟩ := h
  exact ⟨⟨⟨fun e => h1 e.symm, h2.symm⟩, h4⟩, h3⟩

theorem fold_unions_spec (items : List Item) (fuel : Nat)
    (hfuel : ((active_indices items).toFinset).card < fuel) :
    ∀ (L : List (Nat × Nat)) (p0 : Nat → Nat),
      UFInv (active_indices items).toFinset p0 →
      (∀ ab ∈ L, ab.1 ∈ active_indices items ∧ ab.2 ∈ active_indices items) →
      UFInv (active_indices items).toFinset (union_fold items fuel L p0) ∧
      (∀ u v, same_root p0 u v → same_root (union_fold items fuel L p0) u v) ∧
      (∀ ab ∈ L, should_union items ab.1 ab.2 = true →
        same_root (union_fold items fuel L p0) ab.1 ab.2) ∧
      (∀ u v, same_root (union_fold items fuel L p0) u v →
        Relation.EqvGen (fun x y => overlap_edge items x y ∨ same_root p0 x y) u v) := by
  intro L
  induction L with
  | nil =>
    intro p0 hinv hmem
    refine ⟨hinv, fun u v h => h, by simp, fun u v h => Relation.EqvGen.rel u v (Or.inr h)⟩
  | cons ab L ih =>
    intro p0 hinv hmem
    have hab := hmem ab (List.mem_cons_self ab L)
    rw [union_fold_cons]
    by_cases hsu : should_union items ab.1 ab.2 = true
    · rw [if_pos hsu]
      have hmemA : ab.1 ∈ (active_indices items).toFinset := List.mem_toFinset.mpr hab.1
      have hmemB : ab.2 ∈ (active_indices items).toFinset := List.mem_toFinset.mpr hab.2
      obtain ⟨hinv1, hab_same, hmono1, hback1⟩ :=
        uf_union_props p0 ab.1 ab.2 fuel hinv hfuel hmemA hmemB
      obtain ⟨hinvF, hmonoF, hpairsF, hbackF⟩ :=
        ih (uf_union fuel p0 ab.1 ab.2) hinv1
          (fun x hx => hmem x (List.mem_cons_of_mem ab hx))
      refine ⟨hinvF, fun u v h => hmonoF u v (hmono1 u v h), ?_, ?_⟩
      · intro cd hcd hscd
        rcases List.mem_cons.mp hcd with rfl | hcd
        · exact hmonoF cd.1 cd.2 hab_same
        · exact hpairsF cd hcd hscd
      · intro u v h
        refine eqvgen_bind ?_ (hbackF u v h)
        intro x y hxy
        rcases hxy with hedge | hsame
        · exact Relation.EqvGen.rel x y (Or.inl hedge)
        · rcases hback1 x y hsame with h0 | ⟨hxa, hyb⟩ | ⟨hxb, hya⟩
          · exact Relation.EqvGen.rel x y (Or.inr h0)
          · have e1 : Relation.EqvGen (fun x y => overlap_edge items x y ∨ same_root p0 x y) x ab.1 :=
              Relation.EqvGen.rel _ _ (Or.inr hxa)
            have e2 : Relation.EqvGen (fun x y => overlap_edge items x y ∨ same_root p0 x y) ab.1 ab.2 :=
              Relation.EqvGen.rel _ _ (Or.inl ⟨hab.1, hab.2, Or.inl hsu⟩)
            have e3 : Relation.EqvGen (fun x y => overlap_edge items x y ∨ same_root p0 x y) ab.2 y :=
              Relation.EqvGen.symm _ _ (Relation.EqvGen.rel _ _ (Or.inr hyb))
            exact Relation.EqvGen.trans _ _ _ (Relation.EqvGen.trans _ _ _ e1 e2) e3
          · have e1 : Relation.EqvGen (fun x y => overlap_edge items x y ∨ same_root p0 x y) x ab.2 :=
              Relation.EqvGen.rel _ _ (Or.inr hxb)
            have e2 : Relation.EqvGen (fun x y => overlap_edge items x y ∨ same_root p0 x y) ab.2 ab.1 :=
              Relation.EqvGen.rel _ _ (Or.inl ⟨hab.2, hab.1, Or.inr hsu⟩)
            have e3 : Relation.EqvGen (fun x y => overlap_edge items x y ∨ same_root p0 x y) ab.1 y :=
              Relation.EqvGen.symm _ _ (Relation.EqvGen.rel _ _ (Or.inr hya))
            exact Relation.EqvGen.trans _ _ _ (Relation.EqvGen.trans _ _ _ e1 e2) e3
    · rw [if_neg hsu]
      obtain ⟨hinvF, hmonoF, hpairsF, hbackF⟩ :=
        ih p0 hinv (fun x hx => hmem x (List.mem_cons_of_mem ab hx))
      refine ⟨hinvF, hmonoF, ?_, hbackF⟩
      intro cd hcd hscd
      rcases List.mem_cons.mp hcd with rfl | hcd
      · exact absurd hscd hsu
      · exact hpairsF cd hcd hscd

theorem run_unions_spec (items : List Item) (fuel : Nat)
    (hfuel : ((active_indices items).toFinset).card < fuel) :
    UFInv (active_indices items).toFinset (run_unions items fuel) ∧
    (∀ i j, i ∈ active_indices items → j ∈ active_indices items → i ≠ j →
      should_union items i j = true → same_root (run_unions items fuel) i j) ∧
    (∀ u v, same_root (run_unions items fuel) u v →
      u = v ∨ Relation.EqvGen (overlap_edge items) u v) := by
  have hmem : ∀ ab ∈ sub_pairs (active_indices items),
      ab.1 ∈ active_indices items ∧ ab.2 ∈ active_indices items := by
    intro ab hab
    exact sub_pairs_mem (by rwa [← Prod.mk.eta (p := ab)] at hab)
  obtain ⟨hinvF, hmonoF, hpairsF, hbackF⟩ :=
    fold_unions_spec items fuel hfuel (sub_pairs (active_indices items)) (fun x => x)
      (ufinv_id _) hmem
  rw [run_unions_eq_union_fold]
  refine ⟨hinvF, ?_, ?_⟩
  · intro i j hi hj hij hs
    rcases sub_pairs_complete hi hj hij with hp | hp
    · exact hpairsF (i, j) hp hs
    · obtain ⟨r, h1, h2⟩ := hpairsF (j, i) hp (should_union_symm hs)
      exact ⟨r, h2, h1⟩
  · intro u v h
    have h2 := hbackF u v h
    have h3 : Relation.EqvGen (fun x y => overlap_edge items x y ∨ x = y) u v := by
      refine eqvgen_bind ?_ h2
      intro x y hxy
      rcases hxy with he | hs
      · exact Relation.EqvGen.rel x y (Or.inl he)
      · exact Relation.EqvGen.rel x y (Or.inr (same_root_id hs))
    rcases eqvgen_or_eq h3 with h4 | h4
    · exact Or.inr h4
    · exact Or.inl h4

theorem add_to_group_keys (gs : List (Nat × List Nat)) (rt i : Nat) :
    (add_to_group gs rt i).map Prod.fst =
      if rt ∈ gs.map Prod.fst then gs.map Prod.fst else gs.map Prod.fst ++ [rt] := by
  induction gs with
  | nil => simp [add_to_group]
  | cons g rest ih =>
    obtain ⟨r, ms⟩ := g
    by_cases hr : r = rt
    · subst hr
      simp [add_to_group]
  
    · rw [add_to_group, if_neg hr]
      simp only [List.map_cons]
      rw [ih]
      by_cases hmem : rt ∈ rest.map Prod.fst
      · rw [if_pos hmem, if_pos (by simp [hmem])]
      · have hnotin : rt ∉ r :: List.map Prod.fst rest := by
          intro hcon
          rcases List.mem_cons.mp hcon with h | h
          · exact hr h.symm
          · exact hmem h
        rw [if_neg hmem, if_neg hnotin]
        simp

theorem add_to_group_src {gs : List (Nat × List Nat)} {rt i r : Nat} {ms : List Nat}
    (h : (r, ms) ∈ add_to_group gs rt i) :
    (r, ms) ∈ gs ∨ (∃ ms0, (rt, ms0) ∈ gs ∧ r = rt ∧ ms = ms0 ++ [i]) ∨
      (r = rt ∧ ms = [i]) := by
  induction gs with
  | nil =>
    rw [add_to_group] at h
    rcases List.mem_singleton.mp h with heq
    exact Or.inr (Or.inr ⟨congrArg Prod.fst heq, congrArg Prod.snd heq⟩)
  | cons g rest ih =>
    obtain ⟨r0, ms0⟩ := g
    by_cases hr : r0 = rt
    · subst hr
      rw [add_to_group, if_pos rfl] at h
      rcases List.mem_cons.mp h with heq | hmem
      · have h1 : r = r0 := congrArg Prod.fst heq
        have h2 : ms = ms0 ++ [i] := congrArg Prod.snd heq
        exact Or.inr (Or.inl ⟨ms0, List.mem_cons_self _ _, h1, h2⟩)
      · exact Or.inl (List.mem_cons_of_mem _ hmem)
    · rw [add_to_group, if_neg hr] at h
      rcases List.mem_cons.mp h with heq | hmem
      · exact Or.inl (List.mem_cons.mpr (Or.inl heq))
      · rcases ih hmem with h1 | ⟨ms1, h1, h2, h3⟩ | h1
        · exact Or.inl (List.mem_cons_of_mem _ h1)
        · exact Or.inr (Or.inl ⟨ms1, List.mem_cons_of_mem _ h1, h2, h3⟩)
        · exact Or.inr (Or.inr h1)

theorem add_to_group_extend {gs : List (Nat × List Nat)} {r : Nat} {ms : List Nat}
    (rt i : Nat) (h : (r, ms) ∈ gs) :
    ∃ ms2, (r, ms2) ∈ add_to_group gs rt i ∧ ∀ m ∈ ms, m ∈ ms2 := by
  induction gs with
  | nil => cases h
  | cons g rest ih =>
    obtain ⟨r0, ms0⟩ := g
    by_cases hr : r0 = rt
    · subst hr
      rw [add_to_group, if_pos rfl]
      rcases List.mem_cons.mp h with heq | hmem
      · have h1 : r = r0 := congrArg Prod.fst heq
        have h2 : ms = ms0 := congrArg Prod.snd heq
        subst h1
        subst h2
        exact ⟨ms ++ [i], List.mem_cons_self _ _, fun m hm => List.mem_append_left _ hm⟩
      · exact ⟨ms, List.mem_cons_of_mem _ hmem, fun m hm => hm⟩
    · rw [add_to_group, if_neg hr]
      rcases List.mem_cons.mp h with heq | hmem
      · have h1 : r = r0 := congrArg Prod.fst heq
        have h2 : ms = ms0 := congrArg Prod.snd heq
        subst h1
        subst h2
        exact ⟨ms, List.mem_cons_self _ _, fun m hm => hm⟩
      · obtain ⟨ms2, hmem2, hsub⟩ := ih hmem
        exact ⟨ms2, List.mem_cons_of_mem _ hmem2, hsub⟩

theorem add_to_group_new (gs : List (Nat × List Nat)) (rt i : Nat) :
    ∃ ms2, (rt, ms2) ∈ add_to_group gs rt i ∧ i ∈ ms2 := by
  induction gs with
  | nil => exact ⟨[i], by rw [add_to_group]; exact List.mem_singleton.mpr rfl, List.mem_singleton.mpr rfl⟩
  | cons g rest ih =>
    obtain ⟨r0, ms0⟩ := g
    by_cases hr : r0 = rt
    · subst hr
      rw [add_to_group, if_pos rfl]
      exact ⟨ms0 ++ [i], List.mem_cons_self _ _, List.mem_append_right _ (List.mem_singleton.mpr rfl)⟩
    · rw [add_to_group, if_neg hr]
      obtain ⟨ms2, hmem2, hi⟩ := ih
      exact ⟨ms2, List.mem_cons_of_mem _ hmem2, hi⟩

theorem groups_fold_spec (items : List Item) (fuel : Nat)
    (hfuel : ((active_indices items).toFinset).card < fuel) :
    ∀ (l done : List Nat) (q : Nat → Nat) (gs : List (Nat × List Nat)),
      UFInv (active_indices items).toFinset q →
      (∀ z s, Root q z s ↔ Root (run_unions items fuel) z s) →
      (∀ r ms, (r, ms) ∈ gs → ∀ m ∈ ms, m ∈ done ∧ Root (run_unions items fuel) m r) →
      (∀ m ∈ done, ∃ r ms, (r, ms) ∈ gs ∧ m ∈ ms) →
      (gs.map Prod.fst).Nodup →
      (∀ r ms, (r, ms) ∈ gs → ms.Nodup) →
      (done ++ l).Nodup →
      (∀ r ms, (r, ms) ∈ (l.foldl (fun st index =>
          let f := find_parent fuel st.1 index
          (f.1, add_to_group st.2 f.2 index)) (q, gs)).2 →
        ∀ m ∈ ms, m ∈ done ++ l ∧ Root (run_unions items fuel) m r) ∧
      (∀ m ∈ done ++ l, ∃ r ms, (r, ms) ∈ (l.foldl (fun st index =>
          let f := find_parent fuel st.1 index
          (f.1, add_to_group st.2 f.2 index)) (q, gs)).2 ∧ m ∈ ms) ∧
      ((l.foldl (fun st index =>
          let f := find_parent fuel st.1 index
          (f.1, add_to_group st.2 f.2 index)) (q, gs)).2.map Prod.fst).Nodup ∧
      (∀ r ms, (r, ms) ∈ (l.foldl (fun st index =>
          let f := find_parent fuel st.1 index
          (f.1, add_to_group st.2 f.2 index)) (q, gs)).2 → ms.Nodup) := by
  intro l
  induction l with
  | nil =>
    intro done q gs hinvq hiffq h3 h4 h5 h6 hnodup
    simp only [List.foldl_nil, List.append_nil]
    exact ⟨h3, h4, h5, h6⟩
  | cons i l ih =>
    intro done q gs hinvq hiffq h3 h4 h5 h6 hnodup
    simp only [List.foldl_cons]
    have hfp := find_parent_spec (A := (active_indices items).toFinset)
      ((active_indices items).toFinset).card q i hinvq (iterp_card_fix hinvq i) fuel hfuel
    obtain ⟨_, hrootq, hinvq2, hiffq2⟩ := hfp
    have hiffq2f : ∀ z s, Root (find_parent fuel q i).1 z s ↔
        Root (run_unions items fuel) z s := by
      intro z s
      rw [hiffq2 z s, hiffq z s]
    have hrt : Root (run_unions items fuel) i (find_parent fuel q i).2 :=
      (hiffq i _).mp hrootq
    have hidone : i ∉ done := by
      have := hnodup
      rw [List.nodup_append] at this
      exact fun hcon => this.2.2 hcon (List.mem_cons_self i l)
    have h3new : ∀ r ms, (r, ms) ∈ add_to_group gs (find_parent fuel q i).2 i →
        ∀ m ∈ ms, m ∈ done ++ [i] ∧ Root (run_unions items fuel) m r := by
      intro r ms hmem m hm
      rcases add_to_group_src hmem with hold | ⟨ms0, hms0, rfl, rfl⟩ | ⟨rfl, rfl⟩
      · obtain ⟨hmd, hmr⟩ := h3 r ms hold m hm
        exact ⟨List.mem_append_left _ hmd, hmr⟩
      · rcases List.mem_append.mp hm with hm0 | hmi
        · obtain ⟨hmd, hmr⟩ := h3 _ ms0 hms0 m hm0
          exact ⟨List.mem_append_left _ hmd, hmr⟩
        · obtain rfl : m = i := List.mem_singleton.mp hmi
          exact ⟨List.mem_append_right _ (List.mem_singleton.mpr rfl), hrt⟩
      · obtain rfl : m = i := List.mem_singleton.mp hm
        exact ⟨List.mem_append_right _ (List.mem_singleton.mpr rfl), hrt⟩
    have h4new : ∀ m ∈ done ++ [i], ∃ r ms,
        (r, ms) ∈ add_to_group gs (find_parent fuel q i).2 i ∧ m ∈ ms := by
      intro m hm
      rcases List.mem_append.mp hm with hmd | hmi
      · obtain ⟨r, ms, hmem, hin⟩ := h4 m hmd
        obtain ⟨ms2, hmem2, hsub⟩ := add_to_group_extend (find_parent fuel q i).2 i hmem
        exact ⟨r, ms2, hmem2, hsub m hin⟩
      · have hmeq : m = i := List.mem_singleton.mp hmi
        obtain ⟨ms2, hmem2, hin2⟩ := add_to_group_new gs (find_parent fuel q i).2 i
        exact ⟨_, ms2, hmem2, hmeq ▸ hin2⟩
    have h5new : ((add_to_group gs (find_parent fuel q i).2 i).map Prod.fst).Nodup := by
      rw [add_to_group_keys]
      by_cases hmem : (find_parent fuel q i).2 ∈ gs.map Prod.fst
      · rw [if_pos hmem]
        exact h5
      · rw [if_neg hmem]
        rw [List.nodup_append]
        exact ⟨h5, List.nodup_singleton _, fun a ha hb => hmem ((List.mem_singleton.mp hb) ▸ ha)⟩
    have h6new : ∀ r ms, (r, ms) ∈ add_to_group gs (find_parent fuel q i).2 i → ms.Nodup := by
      intro r ms hmem
      rcases add_to_group_src hmem with hold | ⟨ms0, hms0, rfl, rfl⟩ | ⟨rfl, rfl⟩
      · exact h6 r ms hold
      · rw [List.nodup_append]
        refine ⟨h6 _ ms0 hms0, List.nodup_singleton _, ?_⟩
        intro a ha hb
        obtain rfl : a = i := List.mem_singleton.mp hb
        exact hidone (h3 _ ms0 hms0 a ha).1
      · exact List.nodup_singleton _
    have hnodup2 : ((done ++ [i]) ++ l).Nodup := by
      rw [List.append_assoc]
      exact hnodup
    have hres := ih (done ++ [i]) (find_parent fuel q i).1
      (add_to_group gs (find_parent fuel q i).2 i) hinvq2 hiffq2f h3new h4new h5new h6new hnodup2
    obtain ⟨r3, r4, r5, r6⟩ := hres
    have happ : (done ++ [i]) ++ l = done ++ i :: l := by
      rw [List.append_assoc]
      rfl
    rw [happ] at r3 r4
    exact ⟨r3, r4, r5, r6⟩

theorem active_indices_nodup (items : List Item) : (active_indices items).Nodup :=
  List.Nodup.filter _ (List.nodup_range items.length)

theorem active_card_lt (items : List Item) :
    ((active_indices items).toFinset).card < items.length + 1 := by
  have h1 : ((active_indices items).toFinset).card ≤ (active_indices items).length :=
    List.toFinset_card_le _
  have h2 : (active_indices items).length ≤ (List.range items.length).length :=
    List.length_filter_le _ _
  simp only [List.length_range] at h2
  omega

theorem active_indices_lt {items : List Item} {i : Nat}
    (h : i ∈ active_indices items) : i < items.length := by
  have := List.mem_filter.mp h
  exact List.mem_range.mp this.1

theorem active_indices_active {items : List Item} {i : Nat}
    (h : i ∈ active_indices items) : is_active_item (itemAt items i) = true :=
  (List.mem_filter.mp h).2

theorem build_groups_eq (items : List Item) (fuel : Nat) :
    build_groups items fuel = (active_indices items).foldl
      (fun st index =>
        let f := find_parent fuel st.1 index
        (f.1, add_to_group st.2 f.2 index)) (run_unions items fuel, []) :=
  rfl

theorem build_groups_spec (items : List Item) (fuel : Nat)
    (hfuel : ((active_indices items).toFinset).card < fuel) :
    (∀ r ms, (r, ms) ∈ (build_groups items fuel).2 →
      ∀ m ∈ ms, m ∈ active_indices items ∧ Root (run_unions items fuel) m r) ∧
    (∀ m ∈ active_indices items,
      ∃ r ms, (r, ms) ∈ (build_groups items fuel).2 ∧ m ∈ ms) ∧
    ((build_groups items fuel).2.map Prod.fst).Nodup ∧
    (∀ r ms, (r, ms) ∈ (build_groups items fuel).2 → ms.Nodup) := by
  have hinv := (run_unions_spec items fuel hfuel).1
  have hres := groups_fold_spec items fuel hfuel (active_indices items) []
    (run_unions items fuel) [] hinv (fun z s => Iff.rfl)
    (by intro r ms h; cases h) (by intro m h; cases h)
    List.nodup_nil (by intro r ms h; cases h)
    (by simpa using active_indices_nodup items)
  rw [build_groups_eq]
  obtain ⟨r3, r4, r5, r6⟩ := hres
  simp only [List.nil_append] at r3 r4
  exact ⟨r3, r4, r5, r6⟩

theorem keys_nodup_entry_unique {gs : List (Nat × List Nat)} {r : Nat}
    {ms1 ms2 : List Nat} (hnodup : (gs.map Prod.fst).Nodup)
    (h1 : (r, ms1) ∈ gs) (h2 : (r, ms2) ∈ gs) : ms1 = ms2 := by
  induction gs with
  | nil => cases h1
  | cons g rest ih =>
    simp only [List.map_cons, List.nodup_cons] at hnodup
    rcases List.mem_cons.mp h1 with heq1 | hm1 <;> rcases List.mem_cons.mp h2 with heq2 | hm2
    · rw [← heq2] at heq1
      exact congrArg Prod.snd heq1
    · exfalso
      apply hnodup.1
      have : g.1 = r := (congrArg Prod.fst heq1).symm
      rw [this]
      exact List.mem_map.mpr ⟨(r, ms2), hm2, rfl⟩
    · exfalso
      apply hnodup.1
      have : g.1 = r := (congrArg Prod.fst heq2).symm
      rw [this]
      exact List.mem_map.mpr ⟨(r, ms1), hm1, rfl⟩
    · exact ih hnodup.2 hm1 hm2

theorem decimal_digits_val : ∀ fuel n, n ≤ fuel → digits_value (decimal_digits fuel n) = n := by
  intro fuel
  induction fuel with
  | zero =>
    intro n hn
    obtain rfl : n = 0 := by omega
    rfl
  | succ fuel ih =>
    intro n hn
    match n, hn with
    | 0, _ => rfl
    | (k + 1), hn =>
      show digits_value ((k + 1) % 10 :: decimal_digits fuel ((k + 1) / 10)) = k + 1
      rw [digits_value, ih ((k + 1) / 10) (by omega)]
      omega

theorem decimal_digits_lt10 : ∀ fuel n d, d ∈ decimal_digits fuel n → d < 10 := by
  intro fuel
  induction fuel with
  | zero => intro n d h; cases h
  | succ fuel ih =>
    intro n d h
    match n, h with
    | (k + 1), h =>
      rcases List.mem_cons.mp h with rfl | h2
      · omega
      · exact ih _ d h2

theorem digit_char_inj_range :
    ∀ a ∈ Finset.range 10, ∀ b ∈ Finset.range 10,
      Nat.digitChar a = Nat.digitChar b → a = b := by
  decide

theorem map_digit_char_inj : ∀ (l1 l2 : List Nat), (∀ d ∈ l1, d < 10) → (∀ d ∈ l2, d < 10) →
    l1.map Nat.digitChar = l2.map Nat.digitChar → l1 = l2 := by
  intro l1
  induction l1 with
  | nil =>
    intro l2 _ _ h
    cases l2 with
    | nil => rfl
    | cons b bs => simp at h
  | cons a as ih =>
    intro l2 h1 h2 h
    cases l2 with
    | nil => simp at h
    | cons b bs =>
      simp only [List.map_cons, List.cons.injEq] at h
      have hab : a = b := digit_char_inj_range a
        (Finset.mem_range.mpr (h1 a (List.mem_cons_self a as)))
        b (Finset.mem_range.mpr (h2 b (List.mem_cons_self b bs))) h.1
      rw [hab, ih bs (fun d hd => h1 d (List.mem_cons_of_mem a hd))
        (fun d hd => h2 d (List.mem_cons_of_mem b hd)) h.2]

theorem nat_decimal_inj {m n : Nat} (h : nat_decimal m = nat_decimal n) : m = n := by
  by_cases hm : m = 0 <;> by_cases hn : n = 0
  · rw [hm, hn]
  · exfalso
    rw [hm] at h
    rw [show nat_decimal 0 = "0" from rfl] at h
    rw [nat_decimal, if_neg hn] at h
    have h0 : ("0" : String) = String.mk ['0'] := rfl
    rw [h0] at h
    injection h with hdata
    have hd : (decimal_digits n n).reverse = [0] := by
      apply map_digit_char_inj
      · intro d hd
        exact decimal_digits_lt10 n n d (List.mem_reverse.mp hd)
      · intro d hd
        obtain rfl : d = 0 := List.mem_singleton.mp hd
        omega
      · rw [← hdata]
        rfl
    have hdig : decimal_digits n n = [0] := by
      have := congrArg List.reverse hd
      rwa [List.reverse_reverse] at this
    have hv := decimal_digits_val n n (le_refl n)
    rw [hdig] at hv
    exact hn (by rw [← hv]; rfl)
  · exfalso
    rw [hn] at h
    rw [show nat_decimal 0 = "0" from rfl] at h
    rw [nat_decimal, if_neg hm] at h
    have h0 : ("0" : String) = String.mk ['0'] := rfl
    rw [h0] at h
    injection h with hdata
    have hd : (decimal_digits m m).reverse = [0] := by
      apply map_digit_char_inj
      · intro d hd
        exact decimal_digits_lt10 m m d (List.mem_reverse.mp hd)
      · intro d hd
        obtain rfl : d = 0 := List.mem_singleton.mp hd
        omega
      · rw [hdata]
        rfl
    have hdig : decimal_digits m m = [0] := by
      have := congrArg List.reverse hd
      rwa [List.reverse_reverse] at this
    have hv := decimal_digits_val m m (le_refl m)
    rw [hdig] at hv
    exact hm (by rw [← hv]; rfl)
  · rw [nat_decimal, if_neg hm, nat_decimal, if_neg hn] at h
    injection h with hdata
    have hrev : (decimal_digits m m).reverse = (decimal_digits n n).reverse := by
      apply map_digit_char_inj
      · intro d hd
        exact decimal_digits_lt10 m m d (List.mem_reverse.mp hd)
      · intro d hd
        exact decimal_digits_lt10 n n d (List.mem_reverse.mp hd)
      · exact hdata
    have hdig : decimal_digits m m = decimal_digits n n := by
      have := congrArg List.reverse hrev
      rwa [List.reverse_reverse, List.reverse_reverse] at this
    have hv1 := decimal_digits_val m m (le_refl m)
    have hv2 := decimal_digits_val n n (le_refl n)
    rw [hdig, hv2] at hv1
    exact hv1.symm

theorem conflict_gid_inj {k1 k2 : Nat}
    (h : "conflict-" ++ nat_decimal k1 = "conflict-" ++ nat_decimal k2) : k1 = k2 := by
  apply nat_decimal_inj
  apply String.ext
  have hdata := congrArg String.data h
  rw [String.data_append, String.data_append] at hdata
  exact List.append_cancel_left hdata

theorem assign_gid_src : ∀ (c : Nat) (gs : List (Nat × List Nat)) (m : Nat) (gid : String),
    (m, gid) ∈ assign_groups c gs →
    ∃ r ms k, (r, ms) ∈ gs ∧ m ∈ ms ∧ 2 ≤ ms.length ∧ c ≤ k ∧
      gid = "conflict-" ++ nat_decimal k := by
  intro c gs
  induction gs generalizing c with
  | nil => intro m gid h; cases h
  | cons g rest ih =>
    intro m gid h
    obtain ⟨r0, ms0⟩ := g
    rw [assign_groups] at h
    by_cases hlen : ms0.length ≤ 1
    · rw [if_pos hlen] at h
      obtain ⟨r, ms, k, hmem, hm, h2, hck, hgid⟩ := ih c m gid h
      exact ⟨r, ms, k, List.mem_cons_of_mem _ hmem, hm, h2, hck, hgid⟩
    · rw [if_neg hlen] at h
      rcases List.mem_append.mp h with hh | ht
      · obtain ⟨m0, hm0, heq⟩ := List.mem_map.mp hh
        have h1 : m0 = m := congrArg Prod.fst heq
        have h2 : ("conflict-" ++ nat_decimal c : String) = gid := congrArg Prod.snd heq
        exact ⟨r0, ms0, c, List.mem_cons_self _ _, h1 ▸ hm0, by omega, le_refl c, h2.symm⟩
      · obtain ⟨r, ms, k, hmem, hm, h2, hck, hgid⟩ := ih (c + 1) m gid ht
        exact ⟨r, ms, k, List.mem_cons_of_mem _ hmem, hm, h2, by omega, hgid⟩

theorem assign_entry_gid : ∀ (c : Nat) (gs : List (Nat × List Nat)) (r : Nat) (ms : List Nat),
    (r, ms) ∈ gs → 2 ≤ ms.length →
    ∃ gid, ∀ m ∈ ms, (m, gid) ∈ assign_groups c gs := by
  intro c gs
  induction gs generalizing c with
  | nil => intro r ms h; cases h
  | cons g rest ih =>
    intro r ms hmem hlen
    obtain ⟨r0, ms0⟩ := g
    rcases List.mem_cons.mp hmem with heq | htail
    · have h2 : ms = ms0 := congrArg Prod.snd heq
      subst h2
      rw [assign_groups, if_neg (by omega)]
      refine ⟨"conflict-" ++ nat_decimal c, ?_⟩
      intro m hm
      exact List.mem_append_left _ (List.mem_map.mpr ⟨m, hm, rfl⟩)
    · rw [assign_groups]
      by_cases hlen0 : ms0.length ≤ 1
      · rw [if_pos hlen0]
        exact ih c r ms htail hlen
      · rw [if_neg hlen0]
        obtain ⟨gid, hgid⟩ := ih (c + 1) r ms htail hlen
        exact ⟨gid, fun m hm => List.mem_append_right _ (hgid m hm)⟩

theorem assign_same_group : ∀ (c : Nat) (gs : List (Nat × List Nat)) (m1 m2 : Nat) (gid : String),
    (m1, gid) ∈ assign_groups c gs → (m2, gid) ∈ assign_groups c gs →
    ∃ r ms, (r, ms) ∈ gs ∧ m1 ∈ ms ∧ m2 ∈ ms := by
  intro c gs
  induction gs generalizing c with
  | nil => intro m1 m2 gid h; cases h
  | cons g rest ih =>
    intro m1 m2 gid h1 h2
    obtain ⟨r0, ms0⟩ := g
    rw [assign_groups] at h1 h2
    by_cases hlen : ms0.length ≤ 1
    · rw [if_pos hlen] at h1 h2
      obtain ⟨r, ms, hmem, hm1, hm2⟩ := ih c m1 m2 gid h1 h2
      exact ⟨r, ms, List.mem_cons_of_mem _ hmem, hm1, hm2⟩
    · rw [if_neg hlen] at h1 h2
      rcases List.mem_append.mp h1 with hh1 | ht1 <;>
        rcases List.mem_append.mp h2 with hh2 | ht2
      · obtain ⟨x1, hx1, heq1⟩ := List.mem_map.mp hh1
        obtain ⟨x2, hx2, heq2⟩ := List.mem_map.mp hh2
        have e1 : x1 = m1 := congrArg Prod.fst heq1
        have e2 : x2 = m2 := congrArg Prod.fst heq2
        exact ⟨r0, ms0, List.mem_cons_self _ _, e1 ▸ hx1, e2 ▸ hx2⟩
      · exfalso
        obtain ⟨x1, hx1, heq1⟩ := List.mem_map.mp hh1
        have e1 : ("conflict-" ++ nat_decimal c : String) = gid := congrArg Prod.snd heq1
        obtain ⟨r, ms, k, _, _, _, hck, hgid⟩ := assign_gid_src (c + 1) rest m2 gid ht2
        have : c = k := conflict_gid_inj (e1.symm ▸ hgid : _)
        omega
      · exfalso
        obtain ⟨x2, hx2, heq2⟩ := List.mem_map.mp hh2
        have e2 : ("conflict-" ++ nat_decimal c : String) = gid := congrArg Prod.snd heq2
        obtain ⟨r, ms, k, _, _, _, hck, hgid⟩ := assign_gid_src (c + 1) rest m1 gid ht1
        have : c = k := conflict_gid_inj (e2.symm ▸ hgid : _)
        omega
      · obtain ⟨r, ms, hmem, hm1, hm2⟩ := ih (c + 1) m1 m2 gid ht1 ht2
        exact ⟨r, ms, List.mem_cons_of_mem _ hmem, hm1, hm2⟩

theorem lookup_mem : ∀ {l : List (Nat × String)} {k : Nat} {v : String},
    List.lookup k l = some v → (k, v) ∈ l := by
  intro l
  induction l with
  | nil => intro k v h; cases h
  | cons g rest ih =>
    intro k v h
    obtain ⟨a, b⟩ := g
    by_cases hk : k = a
    · subst hk
      simp only [List.lookup, beq_self_eq_true] at h
      obtain rfl : b = v := Option.some.injEq .. ▸ h
      exact List.mem_cons_self _ _
    · simp only [List.lookup, beq_eq_false_iff_ne.mpr hk] at h
      exact List.mem_cons_of_mem _ (ih h)

theorem mem_lookup : ∀ {l : List (Nat × String)} {k : Nat} {v : String},
    (l.map Prod.fst).Nodup → (k, v) ∈ l → List.lookup k l = some v := by
  intro l
  induction l with
  | nil => intro k v _ h; cases h
  | cons g rest ih =>
    intro k v hnodup h
    obtain ⟨a, b⟩ := g
    simp only [List.map_cons, List.nodup_cons] at hnodup
    rcases List.mem_cons.mp h with heq | hmem
    · have e1 : k = a := congrArg Prod.fst heq
      have e2 : v = b := congrArg Prod.snd heq
      subst e1
      subst e2
      simp [List.lookup]
    · have hka : k ≠ a := by
        intro hcon
        apply hnodup.1
        subst hcon
        exact List.mem_map.mpr ⟨(k, v), hmem, rfl⟩
      simp only [List.lookup, beq_eq_false_iff_ne.mpr hka]
      exact ih hnodup.2 hmem

theorem lookup_none_of_not_mem : ∀ {l : List (Nat × String)} {k : Nat},
    (∀ v, (k, v) ∉ l) → List.lookup k l = none := by
  intro l
  induction l with
  | nil => intro k _; rfl
  | cons g rest ih =>
    intro k h
    obtain ⟨a, b⟩ := g
    have hka : k ≠ a := by
      intro hcon
      exact h b (hcon ▸ List.mem_cons_self _ _)
    simp only [List.lookup, beq_eq_false_iff_ne.mpr hka]
    exact ih (fun v hv => h v (List.mem_cons_of_mem _ hv))

theorem assign_keys_mem : ∀ (c : Nat) (gs : List (Nat × List Nat)) (m : Nat),
    m ∈ (assign_groups c gs).map Prod.fst →
    ∃ r ms, (r, ms) ∈ gs ∧ m ∈ ms := by
  intro c gs m h
  obtain ⟨⟨m0, gid⟩, hmem, heq⟩ := List.mem_map.mp h
  obtain ⟨r, ms, k, hmem2, hm, _, _, _⟩ := assign_gid_src c gs m0 gid hmem
  exact ⟨r, ms, hmem2, (heq : m0 = m) ▸ hm⟩

theorem map_fst_map_pair (gid : String) (ms : List Nat) :
    (ms.map (fun m => (m, gid))).map Prod.fst = ms := by
  induction ms with
  | nil => rfl
  | cons a as ih => simp only [List.map_cons, ih]

theorem assign_keys_nodup : ∀ (c : Nat) (gs : List (Nat × List Nat)),
    (∀ r ms, (r, ms) ∈ gs → ms.Nodup) →
    List.Pairwise (fun g1 g2 : Nat × List Nat => ∀ m, m ∈ g1.2 → m ∉ g2.2) gs →
    ((assign_groups c gs).map Prod.fst).Nodup := by
  intro c gs
  induction gs generalizing c with
  | nil => intro _ _; exact List.nodup_nil
  | cons g rest ih =>
    intro hnd hpw
    obtain ⟨r0, ms0⟩ := g
    rw [List.pairwise_cons] at hpw
    rw [assign_groups]
    by_cases hlen : ms0.length ≤ 1
    · rw [if_pos hlen]
      exact ih c (fun r ms h => hnd r ms (List.mem_cons_of_mem _ h)) hpw.2
    · rw [if_neg hlen]
      rw [List.map_append]
      have hmap := map_fst_map_pair ("conflict-" ++ nat_decimal c) ms0
      rw [hmap]
      rw [List.nodup_append]
      refine ⟨hnd r0 ms0 (List.mem_cons_self _ _), ih (c + 1)
        (fun r ms h => hnd r ms (List.mem_cons_of_mem _ h)) hpw.2, ?_⟩
      intro m hm hm2
      obtain ⟨r, ms, hmem, hmms⟩ := assign_keys_mem (c + 1) rest m hm2
      exact hpw.1 (r, ms) hmem m hm hmms

theorem apply_conflicts_length : ∀ (items : List Item) (n : Nat) (asg : List (Nat × String)),
    (apply_conflicts n items asg).length = items.length := by
  intro items
  induction items with
  | nil => intro n asg; rfl
  | cons it rest ih =>
    intro n asg
    show (_ :: apply_conflicts (n + 1) rest asg).length = rest.length + 1
    rw [List.length_cons, ih (n + 1) asg]

theorem apply_conflicts_get? : ∀ (items : List Item) (n : Nat) (asg : List (Nat × String)) (j : Nat),
    (apply_conflicts n items asg).get? j = (items.get? j).map
      (fun it => match asg.lookup (n + j) with
        | some gid => set_conflict it gid
        | none => it) := by
  intro items
  induction items with
  | nil => intro n asg j; rfl
  | cons it rest ih =>
    intro n asg j
    cases j with
    | zero => rfl
    | succ j =>
      show (apply_conflicts (n + 1) rest asg).get? j = _
      rw [ih (n + 1) asg j]
      have h : n + 1 + j = n + (j + 1) := by omega
      rw [h]
      rfl

theorem two_mem_le_length {l : List Nat} {a b : Nat} (ha : a ∈ l) (hb : b ∈ l)
    (hab : a ≠ b) : 2 ≤ l.length := by
  cases l with
  | nil => cases ha
  | cons x rest =>
    cases rest with
    | nil =>
      obtain rfl : a = x := List.mem_singleton.mp ha
      obtain rfl : b = a := List.mem_singleton.mp hb
      exact absurd rfl hab
    | cons y rest2 =>
      simp only [List.length_cons]
      omega

theorem other_mem {l : List Nat} {i : Nat} (hnd : l.Nodup) (hlen : 2 ≤ l.length)
    (hi : i ∈ l) : ∃ j ∈ l, j ≠ i := by
  cases l with
  | nil => cases hi
  | cons x rest =>
    cases rest with
    | nil => simp at hlen
    | cons y rest2 =>
      have hxy : x ≠ y := by
        rw [List.nodup_cons] at hnd
        exact fun h => hnd.1 (h ▸ List.mem_cons_self y rest2)
      by_cases hxi : x = i
      · exact ⟨y, List.mem_cons_of_mem _ (List.mem_cons_self _ _), fun h => hxy ((h.trans hxi.symm).symm ▸ rfl)⟩
      · exact ⟨x, List.mem_cons_self _ _, hxi⟩

theorem asg_value_unique {asg : List (Nat × String)} {i : Nat} {g1 g2 : String}
    (hnd : (asg.map Prod.fst).Nodup) (h1 : (i, g1) ∈ asg) (h2 : (i, g2) ∈ asg) :
    g1 = g2 := by
  have e1 := mem_lookup hnd h1
  have e2 := mem_lookup hnd h2
  rw [e1] at e2
  exact Option.some.injEq .. ▸ e2

theorem detect_assignments_facts (items : List Item) :
    (((detect_assignments items).map Prod.fst).Nodup) ∧
    (∀ m gid, (m, gid) ∈ detect_assignments items → m ∈ active_indices items) ∧
    (∀ i j, i ∈ active_indices items → j ∈ active_indices items → i ≠ j →
      should_union items i j = true →
      ∃ gid, (i, gid) ∈ detect_assignments items ∧ (j, gid) ∈ detect_assignments items) ∧
    (∀ i j gid, (i, gid) ∈ detect_assignments items → (j, gid) ∈ detect_assignments items →
      i = j ∨ Relation.EqvGen (overlap_edge items) i j) ∧
    (∀ i gid, (i, gid) ∈ detect_assignments items →
      ∃ j, j ≠ i ∧ (j, gid) ∈ detect_assignments items) := by
  have hfuel := active_card_lt items
  obtain ⟨g3, g4, g5, g6⟩ := build_groups_spec items (items.length + 1) hfuel
  obtain ⟨hinvU, hpairU, hbackU⟩ := run_unions_spec items (items.length + 1) hfuel
  have hpw : List.Pairwise (fun g1 g2 : Nat × List Nat => ∀ m, m ∈ g1.2 → m ∉ g2.2)
      (build_groups items (items.length + 1)).2 := by
    have hne := List.pairwise_map.mp g5
    refine List.Pairwise.imp_of_mem ?_ hne
    intro g1 g2 hg1 hg2 hfst m hm1 hm2
    apply hfst
    have e1 := (g3 g1.1 g1.2 (by rwa [Prod.mk.eta]) m hm1).2
    have e2 := (g3 g2.1 g2.2 (by rwa [Prod.mk.eta]) m hm2).2
    exact root_unique e1 e2
  have hkeys : ((detect_assignments items).map Prod.fst).Nodup :=
    assign_keys_nodup 1 _ (fun r ms h => g6 r ms h) hpw
  refine ⟨hkeys, ?_, ?_, ?_, ?_⟩
  · intro m gid h
    obtain ⟨r, ms, k, hmem, hm, _, _, _⟩ := assign_gid_src 1 _ m gid h
    exact (g3 r ms hmem m hm).1
  · intro i j hi hj hij hsu
    have hsame : same_root (run_unions items (items.length + 1)) i j :=
      hpairU i j hi hj hij hsu
    obtain ⟨ri, msi, hmi, hini⟩ := g4 i hi
    obtain ⟨rj, msj, hmj, hinj⟩ := g4 j hj
    have hri := (g3 ri msi hmi i hini).2
    have hrj := (g3 rj msj hmj j hinj).2
    obtain ⟨s, hsi, hsj⟩ := hsame
    have e1 : ri = s := root_unique hri hsi
    have e2 : rj = s := root_unique hrj hsj
    have hsame_entry : msi = msj := by
      apply keys_nodup_entry_unique g5 hmi
      rw [e1, ← e2]
      exact hmj
    have hlen : 2 ≤ msi.length :=
      two_mem_le_length hini (hsame_entry ▸ hinj) hij
    obtain ⟨gid, hgid⟩ := assign_entry_gid 1 _ ri msi hmi hlen
    exact ⟨gid, hgid i hini, hgid j (hsame_entry ▸ hinj)⟩
  · intro i j gid h1 h2
    obtain ⟨r, ms, hmem, hi, hj⟩ := assign_same_group 1 _ i j gid h1 h2
    have hri := (g3 r ms hmem i hi).2
    have hrj := (g3 r ms hmem j hj).2
    exact hbackU i j ⟨r, hri, hrj⟩
  · intro i gid h
    obtain ⟨r, ms, k, hmem, hi, hlen, _, _⟩ := assign_gid_src 1 _ i gid h
    obtain ⟨j, hjms, hji⟩ := other_mem (g6 r ms hmem) hlen hi
    obtain ⟨gid2, hgid2⟩ := assign_entry_gid 1 _ r ms hmem hlen
    have hg : gid2 = gid := asg_value_unique hkeys (hgid2 i hi) h
    exact ⟨j, hji, hg ▸ hgid2 j hjms⟩

theorem itemAt_get? {items : List Item} {j : Nat} (hj : j < items.length) :
    items.get? j = some (itemAt items j) := by
  cases hg : items.get? j with
  | none =>
    have := List.get?_eq_none.mp hg
    omega
  | some it =>
    rw [itemAt, List.getD_eq_get?, hg]
    rfl

theorem detect_length (items : List Item) :
    (detect_conflicts items).length = items.length :=
  apply_conflicts_length items 0 (detect_assignments items)

theorem detect_at (items : List Item) (j : Nat) (hj : j < items.length) :
    itemAt (detect_conflicts items) j =
      (match (detect_assignments items).lookup j with
       | some gid => set_conflict (itemAt items j) gid
       | none => itemAt items j) := by
  rw [itemAt, List.getD_eq_get?]
  show ((apply_conflicts 0 items (detect_assignments items)).get? j).getD default = _
  rw [apply_conflicts_get?, itemAt_get? hj]
  have h0 : (0 : Nat) + j = j := Nat.zero_add j
  rw [h0]
  cases (detect_assignments items).lookup j <;> rfl

theorem map_stable_length {l1 l2 : List Item}
    (h : l1.map stable_key = l2.map stable_key) : l1.length = l2.length := by
  have := congrArg List.length h
  simpa using this

theorem stable_itemAt_congr {l1 l2 : List Item}
    (h : l1.map stable_key = l2.map stable_key) (i : Nat) :
    stable_key (itemAt l1 i) = stable_key (itemAt l2 i) := by
  have hlen : l1.length = l2.length := map_stable_length h
  by_cases hi : i < l1.length
  · have h1 : (l1.map stable_key).get? i = (l2.map stable_key).get? i := by rw [h]
    rw [List.get?_map, List.get?_map, itemAt_get? hi, itemAt_get? (by omega)] at h1
    simpa using h1
  · rw [itemAt, itemAt, List.getD_eq_default _ _ (by omega), List.getD_eq_default _ _ (by omega)]

theorem active_indices_congr {l1 l2 : List Item}
    (h : l1.map stable_key = l2.map stable_key) :
    active_indices l1 = active_indices l2 := by
  have hlen : l1.length = l2.length := map_stable_length h
  rw [active_indices, active_indices, hlen]
  apply List.filter_congr
  intro i _
  have hst := stable_itemAt_congr h i
  have e1 : is_active_item (itemAt l1 i) =
      ((stable_key (itemAt l1 i)).1 && !(stable_key (itemAt l1 i)).2.1) := rfl
  have e2 : is_active_item (itemAt l2 i) =
      ((stable_key (itemAt l2 i)).1 && !(stable_key (itemAt l2 i)).2.1) := rfl
  rw [e1, e2, hst]

theorem should_union_congr {l1 l2 : List Item}
    (h : l1.map stable_key = l2.map stable_key) (a b : Nat) :
    should_union l1 a b = should_union l2 a b := by
  have ha := stable_itemAt_congr h a
  have hb := stable_itemAt_congr h b
  have e1 : ∀ (l : List Item) (x y : Nat), should_union l x y =
      (!((stable_key (itemAt l x)).2.2.1 == (stable_key (itemAt l y)).2.2.1) &&
        ((stable_key (itemAt l x)).2.2.2.1 == (stable_key (itemAt l y)).2.2.2.1) &&
        str_lt (stable_key (itemAt l x)).2.2.2.2.1 (stable_key (itemAt l y)).2.2.2.2.2 &&
        str_lt (stable_key (itemAt l y)).2.2.2.2.1 (stable_key (itemAt l x)).2.2.2.2.2) :=
    fun l x y => rfl
  rw [e1 l1 a b, e1 l2 a b, ha, hb]

theorem detect_assignments_congr {l1 l2 : List Item}
    (h : l1.map stable_key = l2.map stable_key) :
    detect_assignments l1 = detect_assignments l2 := by
  have hlen : l1.length = l2.length := map_stable_length h
  have hact := active_indices_congr h
  have hshould : should_union l1 = should_union l2 :=
    funext (fun a => funext (fun b => should_union_congr h a b))
  have hrun : run_unions l1 (l1.length + 1) = run_unions l2 (l2.length + 1) := by
    rw [run_unions, run_unions, hact, hshould, hlen]
  have hbuild : build_groups l1 (l1.length + 1) = build_groups l2 (l2.length + 1) := by
    rw [build_groups_eq, build_groups_eq, hact, hrun, hlen]
  rw [detect_assignments, detect_assignments, hbuild]

theorem stable_apply : ∀ (l : List Item) (n : Nat) (asg : List (Nat × String)),
    (apply_conflicts n l asg).map stable_key = l.map stable_key := by
  intro l
  induction l with
  | nil => intro n asg; rfl
  | cons it rest ih =>
    intro n asg
    show stable_key (match asg.lookup n with
      | some gid => set_conflict it gid
      | none => it) :: (apply_conflicts (n + 1) rest asg).map stable_key = _
    rw [ih (n + 1) asg]
    cases asg.lookup n <;> rfl

theorem apply_twice : ∀ (l : List Item) (n : Nat) (asg : List (Nat × String)),
    apply_conflicts n (apply_conflicts n l asg) asg = apply_conflicts n l asg := by
  intro l
  induction l with
  | nil => intro n asg; rfl
  | cons it rest ih =>
    intro n asg
    show (match asg.lookup n with
      | some gid => set_conflict (match asg.lookup n with
          | some gid2 => set_conflict it gid2
          | none => it) gid
      | none => (match asg.lookup n with
          | some gid2 => set_conflict it gid2
          | none => it)) :: apply_conflicts (n + 1) (apply_conflicts (n + 1) rest asg) asg =
      (match asg.lookup n with
        | some gid => set_conflict it gid
        | none => it) :: apply_conflicts (n + 1) rest asg
    rw [ih (n + 1) asg]
    cases asg.lookup n <;> rfl

theorem itemAt_mem {items : List Item} {j : Nat} (hj : j < items.length) :
    itemAt items j ∈ items :=
  List.get?_mem (itemAt_get? hj)

/-- C8: running detect_conflicts a second time on the output of the first
run returns the output unchanged — cluster membership, isConflict flags,
conflictGroupId values, and group ordering are all stable, because the
fields detect_conflicts reads (enable, skip, course, day, times) are never
written by it, and re-applying the identical assignments is a no-op. -/
theorem C8_detect_idempotent (items : List Item) :
    detect_conflicts (detect_conflicts items) = detect_conflicts items := by
  have hstable : (detect_conflicts items).map stable_key = items.map stable_key :=
    stable_apply items 0 (detect_assignments items)
  show apply_conflicts 0 (detect_conflicts items)
    (detect_assignments (detect_conflicts items)) = detect_conflicts items
  rw [detect_assignments_congr hstable]
  exact apply_twice items 0 (detect_assignments items)

/-- C10: detect_conflicts returns the items in order and number; each output
item is the input item either unchanged or with only is_conflict set to
true and conflict_group_id set to a group identifier; inactive items are
always unchanged; and any changed item is active and shares its group
identifier with a second, distinct index. -/
theorem C10_detect_frame (items : List Item) :
    (detect_conflicts items).length = items.length ∧
    (∀ j, j < items.length →
      (itemAt (detect_conflicts items) j = itemAt items j ∨
        ∃ gid, itemAt (detect_conflicts items) j = set_conflict (itemAt items j) gid) ∧
      (is_active_item (itemAt items j) = false →
        itemAt (detect_conflicts items) j = itemAt items j) ∧
      (itemAt (detect_conflicts items) j ≠ itemAt items j →
        is_active_item (itemAt items j) = true ∧
        (itemAt (detect_conflicts items) j).is_conflict = true ∧
        ∃ gid, (itemAt (detect_conflicts items) j).conflict_group_id = some gid ∧
          ∃ j2, j2 < items.length ∧ j2 ≠ j ∧
            itemAt (detect_conflicts items) j2 = set_conflict (itemAt items j2) gid)) := by
  obtain ⟨hkeys, hsrc, hpairs, hback, hcomp⟩ := detect_assignments_facts items
  refine ⟨detect_length items, ?_⟩
  intro j hj
  rw [detect_at items j hj]
  cases hlook : (detect_assignments items).lookup j with
  | none =>
    exact ⟨Or.inl rfl, fun _ => rfl, fun hne => absurd rfl hne⟩
  | some gid =>
    have hmem : (j, gid) ∈ detect_assignments items := lookup_mem hlook
    have hact : j ∈ active_indices items := hsrc j gid hmem
    refine ⟨Or.inr ⟨gid, rfl⟩, ?_, ?_⟩
    · intro hinactive
      rw [active_indices_active hact] at hinactive
      cases hinactive
    · intro _
      refine ⟨active_indices_active hact, rfl, gid, rfl, ?_⟩
      obtain ⟨j2, hne2, hmem2⟩ := hcomp j gid hmem
      have hact2 : j2 ∈ active_indices items := hsrc j2 gid hmem2
      have hj2 : j2 < items.length := active_indices_lt hact2
      refine ⟨j2, hj2, hne2, ?_⟩
      rw [detect_at items j2 hj2, mem_lookup hkeys hmem2]

/-- C2 as stated is false: conflict clusters are the transitive closure of
pairwise overlap, so two non-overlapping occurrences of different courses
can share a conflict group through a third occurrence overlapping both.
Here occurrences 0 (10:00-10:30) and 1 (11:00-11:30) do not overlap, yet
both end with conflictGroupId "conflict-1" because occurrence 2
(10:15-11:15) overlaps each of them. -/
theorem C2_counterexample :
    str_lt (sample_item "B" "11:00" "11:30").start_time
      (sample_item "A" "10:00" "10:30").end_time = false ∧
    (sample_item "A" "10:00" "10:30").course_id ≠
      (sample_item "B" "11:00" "11:30").course_id ∧
    (itemAt (detect_conflicts [sample_item "A" "10:00" "10:30",
      sample_item "B" "11:00" "11:30", sample_item "C" "10:15" "11:15"])
        0).conflict_group_id = some "conflict-1" ∧
    (itemAt (detect_conflicts [sample_item "A" "10:00" "10:30",
      sample_item "B" "11:00" "11:30", sample_item "C" "10:15" "11:15"])
        1).conflict_group_id = some "conflict-1" := by
  decide

/-- C2 (amended): every pair of active occurrences of different courses on
the same day with intersecting half-open intervals ends with isConflict and
one shared non-null conflictGroupId; and, conversely, on occurrence lists
whose items enter with a null conflictGroupId, two occurrences share a
group identifier only when they are linked by a chain of such overlapping
active pairs (the transitive closure that union-find computes) — instead
of the claim's stronger "non-overlapping or same-course pairs never share
a group". -/
theorem C2_overlap_conflict_amended :
    (∀ (items : List Item) (i j : Nat),
      i ∈ active_indices items → j ∈ active_indices items → i ≠ j →
      should_union items i j = true →
      ∃ gid, (itemAt (detect_conflicts items) i).conflict_group_id = some gid ∧
        (itemAt (detect_conflicts items) j).conflict_group_id = some gid ∧
        (itemAt (detect_conflicts items) i).is_conflict = true ∧
        (itemAt (detect_conflicts items) j).is_conflict = true) ∧
    (∀ (items : List Item) (i j : Nat) (gid : String),
      (∀ it ∈ items, it.conflict_group_id = none) →
      (itemAt (detect_conflicts items) i).conflict_group_id = some gid →
      (itemAt (detect_conflicts items) j).conflict_group_id = some gid →
      i = j ∨ Relation.EqvGen (overlap_edge items) i j) := by
  constructor
  · intro items i j hi hj hij hsu
    obtain ⟨hkeys, hsrc, hpairs, hback, hcomp⟩ := detect_assignments_facts items
    obtain ⟨gid, hmi, hmj⟩ := hpairs i j hi hj hij hsu
    have hilt : i < items.length := active_indices_lt hi
    have hjlt : j < items.length := active_indices_lt hj
    refine ⟨gid, ?_, ?_, ?_, ?_⟩ <;>
      first
      | (rw [detect_at items i hilt, mem_lookup hkeys hmi]; rfl)
      | (rw [detect_at items j hjlt, mem_lookup hkeys hmj]; rfl)
  · intro items i j gid hclean h1 h2
    obtain ⟨hkeys, hsrc, hpairs, hback, hcomp⟩ := detect_assignments_facts items
    have hgetmem : ∀ k, (itemAt (detect_conflicts items) k).conflict_group_id = some gid →
        (k, gid) ∈ detect_assignments items := by
      intro k hk
      by_cases hklt : k < items.length
      · rw [detect_at items k hklt] at hk
        cases hlook : (detect_assignments items).lookup k with
        | none =>
          rw [hlook] at hk
          exact absurd (hclean _ (itemAt_mem hklt) ▸ hk : (none : Option String) = some gid)
            (by simp)
        | some g =>
          rw [hlook] at hk
          have : some g = some gid := hk
          have hg : g = gid := Option.some.injEq .. ▸ this
          exact hg ▸ lookup_mem hlook
      · exfalso
        have hdef : itemAt (detect_conflicts items) k = default := by
          rw [itemAt]
          apply List.getD_eq_default
          rw [detect_length]
          omega
        rw [hdef] at hk
        cases hk
    exact hback i j gid (hgetmem i h1) (hgetmem j h2)

/-- C2 witness: the amended positive half applied to two concretely
overlapping occurrences of different courses. -/
theorem C2_overlap_conflict_witness :
    ∃ gid,
      (itemAt (detect_conflicts [sample_item "A" "10:00" "11:00",
        sample_item "B" "10:30" "11:30"]) 0).conflict_group_id = some gid ∧
      (itemAt (detect_conflicts [sample_item "A" "10:00" "11:00",
        sample_item "B" "10:30" "11:30"]) 1).conflict_group_id = some gid ∧
      (itemAt (detect_conflicts [sample_item "A" "10:00" "11:00",
        sample_item "B" "10:30" "11:30"]) 0).is_conflict = true ∧
      (itemAt (detect_conflicts [sample_item "A" "10:00" "11:00",
        sample_item "B" "10:30" "11:30"]) 1).is_conflict = true :=
  C2_overlap_conflict_amended.1 [sample_item "A" "10:00" "11:00",
    sample_item "B" "10:30" "11:30"] 0 1 (by decide) (by decide) (by decide) (by decide)

/-- C10 witness: the frame conditions instantiated at index 0 of a concrete
two-occurrence list. -/
theorem C10_detect_frame_witness :
    itemAt (detect_conflicts [sample_item "A" "10:00" "11:00",
        sample_item "B" "10:30" "11:30"]) 0 =
      itemAt [sample_item "A" "10:00" "11:00", sample_item "B" "10:30" "11:30"] 0 ∨
    ∃ gid, itemAt (detect_conflicts [sample_item "A" "10:00" "11:00",
        sample_item "B" "10:30" "11:30"]) 0 =
      set_conflict (itemAt [sample_item "A" "10:00" "11:00",
        sample_item "B" "10:30" "11:30"] 0) gid :=
  ((C10_detect_frame [sample_item "A" "10:00" "11:00",
    sample_item "B" "10:30" "11:30"]).2 0 (by decide)).1

theorem ics_step_undecodable {e : IcsEventRec} (h : e.decoded = none) :
    ics_event_step e = ([], []) := by
  rw [ics_event_step]
  by_cases hname : e.name ≠ "VEVENT"
  · rw [if_pos hname]
  · rw [if_neg hname, h]

theorem ics_loop_skip_undecodable (l1 l2 : List IcsEventRec) (e : IcsEventRec)
    (h : e.decoded = none) :
    ics_loop (l1 ++ e :: l2) = ics_loop (l1 ++ l2) := by
  rw [ics_loop, ics_loop, List.foldl_append, List.foldl_append, List.foldl_cons]
  have hstep : ∀ st : List RawMeeting × List (CivilDate × CivilDate),
      (st.1 ++ (ics_event_step e).1, st.2 ++ (ics_event_step e).2) = st := by
    intro st
    rw [ics_step_undecodable h]
    simp
  rw [hstep]

theorem parse_congr_loop {a b : List IcsEventRec} (h : ics_loop a = ics_loop b) :
    parse_ics_schedule a = parse_ics_schedule b := by
  unfold parse_ics_schedule
  rw [h]

theorem ics_step_unusable_raw {ev : IcsEventRec} (h : event_usable ev = false) :
    (ics_event_step ev).1 = [] := by
  rw [ics_event_step]
  by_cases hname : ev.name ≠ "VEVENT"
  · rw [if_pos hname]
  · rw [if_neg hname]
    rw [not_not] at hname
    rw [event_usable, beq_iff_eq.mpr hname, Bool.true_and] at h
    cases hdec : ev.decoded with
    | none => rfl
    | some p =>
      obtain ⟨ds, de⟩ := p
      rw [hdec] at h
      cases ds with
      | donly d => cases de <;> rfl
      | inval => cases de <;> rfl
      | dtime d1 h1 m1 =>
        cases de with
        | donly d => rfl
        | inval => rfl
        | dtime d2 h2 m2 =>
          show (if dt_le d2 h2 m2 d1 h1 m1 then _ else
            if str_trim ev.summary = "" then _ else
            if ev.courseName = "" then _ else _ :
              List RawMeeting × List (CivilDate × CivilDate)).1 = []
          by_cases hle : dt_le d2 h2 m2 d1 h1 m1 = true
          · rw [if_pos hle]
          · rw [if_neg (by simpa using hle)]
            by_cases hsum : str_trim ev.summary = ""
            · rw [if_pos hsum]
            · rw [if_neg hsum]
              by_cases hcourse : ev.courseName = ""
              · rw [if_pos hcourse]
              · exfalso
                simp only [Bool.and_eq_false_iff, Bool.not_eq_false'] at h
                rcases h with (h1 | h2) | h3
                · exact hle h1
                · exact hsum (beq_iff_eq.mp h2)
                · exact hcourse (beq_iff_eq.mp h3)

theorem ics_loop_raw_nil : ∀ (events : List IcsEventRec)
    (st : List RawMeeting × List (CivilDate × CivilDate)),
    (∀ ev ∈ events, event_usable ev = false) →
    (events.foldl (fun st ev =>
      let r := ics_event_step ev
      (st.1 ++ r.1, st.2 ++ r.2)) st).1 = st.1 := by
  intro events
  induction events with
  | nil => intro st _; rfl
  | cons ev rest ih =>
    intro st hall
    rw [List.foldl_cons]
    have hstep : (st.1 ++ (ics_event_step ev).1, st.2 ++ (ics_event_step ev).2).1 = st.1 := by
      rw [ics_step_unusable_raw (hall ev (List.mem_cons_self ev rest))]
      simp
    rw [ih _ (fun e he => hall e (List.mem_cons_of_mem ev he))]
    exact hstep

theorem min_date_le {l : List CivilDate} : ∀ {d x : CivilDate}, x ∈ d :: l →
    dateOrd (min_date d l) ≤ dateOrd x := by
  induction l with
  | nil =>
    intro d x hx
    obtain rfl : x = d := List.mem_singleton.mp hx
    exact le_refl _
  | cons b rest ih =>
    intro d x hx
    have hstep : min_date d (b :: rest) = min_date (if dateOrd b < dateOrd d then b else d) rest :=
      rfl
    rw [hstep]
    have hdb : dateOrd (if dateOrd b < dateOrd d then b else d) ≤ dateOrd d ∧
        dateOrd (if dateOrd b < dateOrd d then b else d) ≤ dateOrd b := by
      by_cases hc : dateOrd b < dateOrd d
      · rw [if_pos hc]; omega
      · rw [if_neg hc]; omega
    rcases List.mem_cons.mp hx with rfl | hx2
    · exact le_trans (ih (List.mem_cons_self _ rest)) hdb.1
    · rcases List.mem_cons.mp hx2 with rfl | hx3
      · exact le_trans (ih (List.mem_cons_self _ rest)) hdb.2
      · exact ih (List.mem_cons_of_mem _ hx3)

theorem max_date_ge {l : List CivilDate} : ∀ {d x : CivilDate}, x ∈ d :: l →
    dateOrd x ≤ dateOrd (max_date d l) := by
  induction l with
  | nil =>
    intro d x hx
    obtain rfl : x = d := List.mem_singleton.mp hx
    exact le_refl _
  | cons b rest ih =>
    intro d x hx
    have hstep : max_date d (b :: rest) = max_date (if dateOrd d < dateOrd b then b else d) rest :=
      rfl
    rw [hstep]
    have hdb : dateOrd d ≤ dateOrd (if dateOrd d < dateOrd b then b else d) ∧
        dateOrd b ≤ dateOrd (if dateOrd d < dateOrd b then b else d) := by
      by_cases hc : dateOrd d < dateOrd b
      · rw [if_pos hc]; omega
      · rw [if_neg hc]; omega
    rcases List.mem_cons.mp hx with rfl | hx2
    · exact le_trans hdb.1 (ih (List.mem_cons_self _ rest))
    · rcases List.mem_cons.mp hx2 with rfl | hx3
      · exact le_trans hdb.2 (ih (List.mem_cons_self _ rest))
      · exact ih (List.mem_cons_of_mem _ hx3)

/-- C9: a calendar entry whose start/end instants cannot be decoded is
skipped without affecting anything else in the import (the parse of the
remaining entries is unchanged); and a document with no usable weekly
events still returns a result — an empty course list, with the semester
span taken from the directly observed date-range candidates (none when
there are none, else exactly their minimum start and maximum end). -/
theorem C9_import_error_policy :
    (∀ (l1 l2 : List IcsEventRec) (e : IcsEventRec), e.decoded = none →
      parse_ics_schedule (l1 ++ e :: l2) = parse_ics_schedule (l1 ++ l2)) ∧
    (∀ events : List IcsEventRec, (∀ ev ∈ events, event_usable ev = false) →
      (parse_ics_schedule events).courses = [] ∧
      ((ics_loop events).2 = [] →
        (parse_ics_schedule events).semesterStartDate = none ∧
        (parse_ics_schedule events).semesterEndDate = none) ∧
      (∀ c cs, (ics_loop events).2 = c :: cs →
        (parse_ics_schedule events).semesterStartDate = some (min_date c.1 (cs.map Prod.fst)) ∧
        (parse_ics_schedule events).semesterEndDate = some (max_date c.2 (cs.map Prod.snd)) ∧
        (∀ pair ∈ (ics_loop events).2,
          dateOrd (min_date c.1 (cs.map Prod.fst)) ≤ dateOrd pair.1 ∧
          dateOrd pair.2 ≤ dateOrd (max_date c.2 (cs.map Prod.snd))))) := by
  constructor
  · intro l1 l2 e he
    exact parse_congr_loop (ics_loop_skip_undecodable l1 l2 e he)
  · intro events hall
    have hraw : (ics_loop events).1 = [] := ics_loop_raw_nil events ([], []) hall
    have hunfold : parse_ics_schedule events =
        (match (ics_loop events).2 with
         | [] => { semesterStartDate := none, semesterEndDate := none, courses := [] }
         | c :: cs =>
           { semesterStartDate := some (min_date c.1 (cs.map Prod.fst))
             semesterEndDate := some (max_date c.2 (cs.map Prod.snd))
             courses := [] }) := by
      rw [parse_ics_schedule]
      rw [hraw]
    refine ⟨?_, ?_, ?_⟩
    · rw [hunfold]
      cases (ics_loop events).2 <;> rfl
    · intro hc
      rw [hunfold, hc]
      exact ⟨rfl, rfl⟩
    · intro c cs hc
      rw [hunfold, hc]
      refine ⟨rfl, rfl, ?_⟩
      intro pair hpair
      constructor
      · apply min_date_le
        rcases List.mem_cons.mp hpair with rfl | hp2
        · exact List.mem_cons_self _ _
        · exact List.mem_cons_of_mem _ (List.mem_map.mpr ⟨pair, hp2, rfl⟩)
      · apply max_date_ge
        rcases List.mem_cons.mp hpair with rfl | hp2
        · exact List.mem_cons_self _ _
        · exact List.mem_cons_of_mem _ (List.mem_map.mpr ⟨pair, hp2, rfl⟩)

/-- C9 witness: parsing a document consisting of one undecodable entry
equals parsing the empty document. -/
theorem C9_import_error_policy_witness :
    parse_ics_schedule ([] ++ undecodable_event :: []) = parse_ics_schedule ([] ++ []) :=
  C9_import_error_policy.1 [] [] undecodable_event rfl
